import Mathlib

/-!
Verification of the latex-email-daemon core: a shallow embedding of
`main.py` (watermark store, inbox filter loop) and `handle_email.py`
(LaTeX escaping, paragraph segmentation, HTML-tree conversion, template
assembly) as executable Lean definitions over `List Char`, together with
theorems settling the specification claims.

Python strings are modelled as `List Char`.  Python's `str.replace`,
`str.strip`, `str.splitlines`, `str.lower`, `in` (substring test) and
`int(...)` are each given explicit executable models below, faithful to
CPython semantics on the character sets the daemon manipulates.
-/

set_option maxRecDepth 4000

namespace LatexEmail

/-- Python strings are modelled as lists of characters. -/
abbrev Str := List Char

/-- Convenience conversion from a Lean string literal to the model type. -/
def str (s : String) : Str := s.toList

/-- `startsWithCL pat s` : does `s` begin with `pat`?  (Used to model the
left-to-right scan of Python's `str.replace` and the `in` operator.) -/
def startsWithCL : Str → Str → Bool
  | [], _ => true
  | _ :: _, [] => false
  | p :: ps, c :: cs => p = c && startsWithCL ps cs

/-- Python's substring test `pat in s`. -/
def containsSub (pat : Str) : Str → Bool
  | [] => startsWithCL pat []
  | c :: cs => startsWithCL pat (c :: cs) || containsSub pat cs

/-- Python's `s.endswith(suffix)`. -/
def endsWithCL (s suff : Str) : Bool := startsWithCL suff.reverse s.reverse

/-- Fuel-driven worker for Python's `str.replace`: scan left to right,
replace each non-overlapping occurrence of `pat` by `val`.  The fuel is
an upper bound on the number of scan steps; `replaceAll` supplies the
length of the subject, which always suffices. -/
def replaceAllGo (pat val : Str) : Nat → Str → Str
  | _, [] => []
  | 0, s => s
  | fuel + 1, c :: cs =>
    if startsWithCL pat (c :: cs) then
      val ++ replaceAllGo pat val fuel (List.drop (pat.length - 1) cs)
    else
      c :: replaceAllGo pat val fuel cs

/-- Python's `s.replace(pat, val)` for non-empty `pat`. -/
def replaceAll (s pat val : Str) : Str := replaceAllGo pat val s.length s

/-- CPython's whitespace class for `str.strip` / `str.isspace`. -/
def isPySpace (c : Char) : Bool :=
  let n := c.toNat
  n = 0x20 || (0x09 ≤ n && n ≤ 0x0d) || (0x1c ≤ n && n ≤ 0x1f) ||
  n = 0x85 || n = 0xa0 || n = 0x1680 || (0x2000 ≤ n && n ≤ 0x200a) ||
  n = 0x2028 || n = 0x2029 || n = 0x202f || n = 0x205f || n = 0x3000

/-- Drop trailing characters satisfying `p`. -/
def dropEndWhile (p : Char → Bool) (s : Str) : Str :=
  (s.reverse.dropWhile p).reverse

/-- Python's `s.strip()`. -/
def pyStrip (s : Str) : Str := dropEndWhile isPySpace (s.dropWhile isPySpace)

/-- ASCII model of Python's `str.lower()` (the daemon compares e-mail
addresses and domains, which it treats as ASCII). -/
def pyLowerChar (c : Char) : Char :=
  if 'A' ≤ c && c ≤ 'Z' then Char.ofNat (c.toNat + 32) else c

/-- Python's `s.lower()`. -/
def toLowerStr (s : Str) : Str := s.map pyLowerChar

/- ------------------------------------------------------------------
   LaTeX escaping (`handle_email.py`, lines 31-49)
   ------------------------------------------------------------------ -/

/-- The reserved-character class of `LATEX_ESCAPE_PATTERN`,
`[\\%$#_{}~^&]` (source line 31). -/
def isLatexSpecial (c : Char) : Bool :=
  c = '\\' || c = '%' || c = '$' || c = '#' || c = '_' ||
  c = '\x7b' || c = '\x7d' || c = '~' || c = '^' || c = '&'

/-- The replacement table `LATEX_REPLACEMENTS` (source lines 32-43). -/
def latexReplacement (c : Char) : Str :=
  if c = '\\' then str "\\textbackslash\x7b\x7d"
  else if c = '%' then str "\\%"
  else if c = '$' then str "\\$"
  else if c = '#' then str "\\#"
  else if c = '_' then str "\\_"
  else if c = '\x7b' then str "\\\x7b"
  else if c = '\x7d' then str "\\\x7d"
  else if c = '~' then str "\\textasciitilde\x7b\x7d"
  else if c = '^' then str "\\^\x7b\x7d"
  else if c = '&' then str "\\&"
  else [c]

/-- `latex_escape` (source lines 45-49): `LATEX_ESCAPE_PATTERN.sub`
replaces every occurrence of a reserved character by its table entry;
the pattern is a single-character class, so the scan is character by
character.  Empty input returns the empty string via the `if not text`
guard. -/
def latex_escape : Str → Str
  | [] => []
  | c :: cs =>
    (if isLatexSpecial c then latexReplacement c else [c]) ++ latex_escape cs

/- ------------------------------------------------------------------
   Watermark store (`main.py`, lines 46-58)
   ------------------------------------------------------------------ -/

/-- Decimal digit to character. -/
def digitChar : Nat → Char
  | 0 => '0' | 1 => '1' | 2 => '2' | 3 => '3' | 4 => '4'
  | 5 => '5' | 6 => '6' | 7 => '7' | 8 => '8' | _ => '9'

/-- Numeric value of a decimal digit character. -/
def digitVal (c : Char) : Nat := c.toNat - 48

/-- Little-endian decimal digits of `n`; the fuel (first argument) bounds
the recursion depth and `n` itself always suffices. -/
def natDecRev : Nat → Nat → List Nat
  | 0, n => [n % 10]
  | fuel + 1, n => if n < 10 then [n] else n % 10 :: natDecRev fuel (n / 10)

/-- Python's `str(n)` for a natural number. -/
def natToDecimal (n : Nat) : Str := ((natDecRev n n).reverse).map digitChar

/-- Python's `str(z)` for an integer. -/
def intToDecimal (z : Int) : Str :=
  if z < 0 then '-' :: natToDecimal z.natAbs else natToDecimal z.toNat

/-- Value of a big-endian list of digit characters. -/
def parseDigitsBE (l : Str) : Nat :=
  l.foldl (fun acc c => acc * 10 + digitVal c) 0

/-- Validity of the part of a Python integer literal after its first
digit: a sequence of digits in which each underscore is followed by a
digit (CPython underscore rule: single underscores between digits). -/
def validIntTail : Str → Bool
  | [] => true
  | c :: rest =>
    if c = '_' then
      match rest with
      | [] => false
      | d :: rest2 => d.isDigit && validIntTail rest2
    else c.isDigit && validIntTail rest

/-- Validity of the digit part of a Python integer literal: at least one
digit, then `validIntTail`. -/
def validIntBody : Str → Bool
  | [] => false
  | c :: rest => c.isDigit && validIntTail rest

/-- Python's `int(s)` on an already-stripped string: optional sign, then
digits possibly grouped by single underscores; `none` models the
`ValueError` raised on any other input. -/
def parsePyInt : Str → Option Int
  | [] => none
  | c :: rest =>
    if c = '+' then
      if validIntBody rest then
        some (Int.ofNat (parseDigitsBE (rest.filter (· ≠ '_'))))
      else none
    else if c = '-' then
      if validIntBody rest then
        some (-(Int.ofNat (parseDigitsBE (rest.filter (· ≠ '_')))))
      else none
    else
      if validIntBody (c :: rest) then
        some (Int.ofNat (parseDigitsBE ((c :: rest).filter (· ≠ '_'))))
      else none

/-- The watermark file: `none` models an absent (or unreadable) file,
`some s` a file whose full text is `s`. -/
abbrev StoreFile := Option Str

/-- `load_state` (source lines 46-52): read the file, strip the content,
return `0` for an empty value, `int(value)` for a parseable one, and `0`
whenever anything raises (absent file, corrupt content). -/
def load_state (store : StoreFile) : Int :=
  match store with
  | none => 0
  | some content =>
    let value := pyStrip content
    if value = [] then 0
    else
      match parsePyInt value with
      | some z => z
      | none => 0

/-- `save_state` (source lines 54-58): write `str(last_uid)` via a
temporary file and an atomic rename; the store transitions directly to
the new full content. -/
def save_state (last_uid : Int) (_store : StoreFile) : StoreFile :=
  some (intToDecimal last_uid)

/- ------------------------------------------------------------------
   Matching side conditions for `replaceAll` reasoning
   ------------------------------------------------------------------ -/

/-- `cannotMatchAt pat t`: at every start position inside `t`, matching
`pat` fails at some index still inside `t` — so no occurrence of `pat`
can begin inside `t`, no matter what text follows `t`. -/
def cannotMatchAt (pat t : Str) : Prop :=
  ∀ i, i < t.length →
    ∃ j, j < pat.length ∧ i + j < t.length ∧ pat.getD j ' ' ≠ t.getD (i + j) ' '

instance instDecCannotMatchAt (pat t : Str) : Decidable (cannotMatchAt pat t) := by
  unfold cannotMatchAt
  exact Nat.decidableBallLT _ _

/-- `noTokenSeed t`: `t` contains no two consecutive open braces and does
not end with an open brace; hence no placeholder token (which begins with
two open braces) can start inside `t`. -/
def noTokenSeed : Str → Bool
  | [] => true
  | [c] => !(c = '\x7b')
  | c :: d :: rest => !(c = '\x7b' && d = '\x7b') && noTokenSeed (d :: rest)

/- ------------------------------------------------------------------
   Line splitting (Python `str.splitlines`)
   ------------------------------------------------------------------ -/

/-- CPython's line-boundary characters for `str.splitlines`. -/
def isLineBreakChar (c : Char) : Bool :=
  let n := c.toNat
  n = 0x0a || n = 0x0d || n = 0x0b || n = 0x0c || n = 0x1c || n = 0x1d ||
  n = 0x1e || n = 0x85 || n = 0x2028 || n = 0x2029

/-- Worker for `splitlines`: `acc` holds the current line reversed;
`\r\n` counts as a single boundary; a trailing boundary produces no
final empty line.  The fuel bounds the scan length; the length of the
remaining input always suffices. -/
def splitlinesGo : Nat → Str → Str → List Str
  | _, acc, [] => [acc.reverse]
  | 0, acc, s => [acc.reverse ++ s]
  | fuel + 1, acc, [c] =>
    if isLineBreakChar c then [acc.reverse] else [(c :: acc).reverse]
  | fuel + 1, acc, c :: c2 :: rest =>
    if isLineBreakChar c then
      if c = '\r' && c2 = '\n' then
        acc.reverse :: (if rest = [] then [] else splitlinesGo fuel [] rest)
      else acc.reverse :: splitlinesGo fuel [] (c2 :: rest)
    else splitlinesGo fuel (c :: acc) (c2 :: rest)

/-- Python's `s.splitlines()`. -/
def splitlinesPy (s : Str) : List Str := if s = [] then [] else splitlinesGo s.length [] s

/-- Python's `sep.join(pieces)` / joining with a separator. -/
def joinSep (sep : Str) : List Str → Str
  | [] => []
  | [x] => x
  | x :: y :: xs => x ++ sep ++ joinSep sep (y :: xs)

/- ------------------------------------------------------------------
   Paragraph segmentation (`handle_email.py`, lines 138-215)
   ------------------------------------------------------------------ -/

/-- The four paragraph slots returned by the segmenters. -/
structure Slots where
  first : Str
  second : Str
  third : Str
  rest : Str
deriving DecidableEq

/-- The LaTeX line-break marker `r"\\"` injected for internal newlines. -/
def nlMark : Str := ['\\', '\\']

/-- `.replace("\n", r"\\")` on a paragraph. -/
def markLineBreaks (s : Str) : Str := replaceAll s ['\n'] nlMark

/-- The paragraph-accumulation loop of `split_paragraphs` (source lines
155-169): blank lines (whitespace-only) end the current paragraph; a
paragraph is the `"\n"`-join of its accumulated lines. -/
def paraLoop : List Str → List Str → List Str
  | current, [] => if current = [] then [] else [joinSep ['\n'] current]
  | current, line :: rest =>
    if pyStrip line = [] then
      (if current = [] then [] else [joinSep ['\n'] current]) ++ paraLoop [] rest
    else paraLoop (current ++ [line]) rest

/-- `split_paragraphs` (source lines 138-187): split plain text into the
first three paragraphs and the joined remainder, LaTeX-escape each, and
rewrite internal newlines of the first three to the line-break marker. -/
def split_paragraphs (text : Str) : Slots :=
  if text = [] ∨ pyStrip text = [] then ⟨[], [], [], []⟩
  else
    let paragraphs := paraLoop [] (splitlinesPy text)
    if paragraphs = [] then ⟨[], [], [], []⟩
    else
      let first := paragraphs.getD 0 []
      let second := paragraphs.getD 1 []
      let third := paragraphs.getD 2 []
      let rest := if 3 < paragraphs.length then joinSep (str "\n\n") (paragraphs.drop 3) else []
      ⟨if first = [] then [] else markLineBreaks (latex_escape first),
       if second = [] then [] else markLineBreaks (latex_escape second),
       if third = [] then [] else markLineBreaks (latex_escape third),
       latex_escape rest⟩

/-- Worker for Python's `s.split(sep)` with a non-empty separator:
non-overlapping left-to-right splits, empty pieces kept.  `cur` holds
the current piece reversed. -/
def splitOnSubGo (sep : Str) : Nat → Str → Str → List Str
  | _, cur, [] => [cur.reverse]
  | 0, cur, s => [cur.reverse ++ s]
  | fuel + 1, cur, c :: cs =>
    if startsWithCL sep (c :: cs) then
      cur.reverse :: splitOnSubGo sep fuel [] (List.drop (sep.length - 1) cs)
    else splitOnSubGo sep fuel (c :: cur) cs

/-- Python's `s.split(sep)` for non-empty `sep`. -/
def splitOnSub (s sep : Str) : List Str := splitOnSubGo sep s.length [] s

/-- `split_latex_paragraphs` (source lines 190-215): split
already-converted LaTeX on double newlines, strip each piece, discard
empty pieces, bucket into the four slots without escaping, and rewrite
internal newlines of the first three to the line-break marker. -/
def split_latex_paragraphs (latex_text : Str) : Slots :=
  if latex_text = [] ∨ pyStrip latex_text = [] then ⟨[], [], [], []⟩
  else
    let paragraphs := ((splitOnSub latex_text (str "\n\n")).map pyStrip).filter (· ≠ [])
    if paragraphs = [] then ⟨[], [], [], []⟩
    else
      let first := paragraphs.getD 0 []
      let second := paragraphs.getD 1 []
      let third := paragraphs.getD 2 []
      let rest := if 3 < paragraphs.length then joinSep (str "\n\n") (paragraphs.drop 3) else []
      ⟨if first = [] then [] else markLineBreaks first,
       if second = [] then [] else markLineBreaks second,
       if third = [] then [] else markLineBreaks third,
       rest⟩

/- ------------------------------------------------------------------
   HTML tree to LaTeX (`handle_email.py`, lines 80-135)
   ------------------------------------------------------------------ -/

/-- A node of the parsed HTML tree handed to `process_element`: either a
`NavigableString` text leaf or a tag element with attributes and ordered
children.  (Parsing the HTML text into this tree is BeautifulSoup's job,
an external collaborator.) -/
inductive RichNode where
  | text (s : Str)
  | elem (tag : Str) (attrs : List (Str × Str)) (children : List RichNode)

/-- `element.get(name, '')`. -/
def getAttr (attrs : List (Str × Str)) (name : Str) : Str :=
  match attrs.find? (fun p => p.1 == name) with
  | some p => p.2
  | none => []

mutual

/-- `process_element` (source lines 87-132): recursively convert a node
to LaTeX — text leaves via `latex_escape`, elements by converting all
children in document order and wrapping according to the tag. -/
def processElement : RichNode → Str
  | .text s => latex_escape s
  | .elem tag attrs children =>
    let children_latex := processChildren children
    if tag = str "strong" ∨ tag = str "b" then
      str "\\textbf\x7b" ++ children_latex ++ ['\x7d']
    else if tag = str "em" ∨ tag = str "i" then
      str "\\textit\x7b" ++ children_latex ++ ['\x7d']
    else if tag = str "u" then
      str "\\uline\x7b" ++ children_latex ++ ['\x7d']
    else if tag = str "a" then
      str "\\href\x7b" ++ latex_escape (getAttr attrs (str "href")) ++
        str "\x7d\x7b" ++ children_latex ++ ['\x7d']
    else if tag = str "br" then str "\\\\"
    else if tag = str "ul" then
      str "\\begin\x7bitemize\x7d\n" ++ joinSep ['\n'] (processItems children) ++
        str "\n\\end\x7bitemize\x7d"
    else if tag = str "ol" then
      str "\\begin\x7benumerate\x7d\n" ++ joinSep ['\n'] (processItems children) ++
        str "\n\\end\x7benumerate\x7d"
    else if tag = str "p" then children_latex ++ str "\n\n"
    else if tag = str "li" then children_latex
    else children_latex

/-- Concatenation of the converted children in document order. -/
def processChildren : List RichNode → Str
  | [] => []
  | n :: ns => processElement n ++ processChildren ns

/-- `find_all('li', recursive=False)` followed by per-item conversion
(source lines 112-115 / 119-122): each direct `li` child becomes one
`\item` entry. -/
def processItems : List RichNode → List Str
  | [] => []
  | .text _ :: rest => processItems rest
  | .elem tag _ cs :: rest =>
    if tag = str "li" then (str "\\item " ++ processChildren cs) :: processItems rest
    else processItems rest

end

/-- `html_to_latex` (source lines 80-135) applied to the parsed tree:
convert and strip leading/trailing whitespace. -/
def html_to_latex (root : RichNode) : Str := pyStrip (processElement root)

/- ------------------------------------------------------------------
   Template assembly (`handle_email.py`, lines 269-280)
   ------------------------------------------------------------------ -/

def tokSUBJECT : Str := str "\x7b\x7bSUBJECT\x7d\x7d"
def tokFIRST : Str := str "\x7b\x7bFIRST_PARAGRAPH\x7d\x7d"
def tokSECOND : Str := str "\x7b\x7bSECOND_PARAGRAPH\x7d\x7d"
def tokTHIRD : Str := str "\x7b\x7bTHIRD_PARAGRAPH\x7d\x7d"
def tokBODY : Str := str "\x7b\x7bBODY\x7d\x7d"

/-- `required_placeholders` (source line 269). -/
def required_placeholders : List Str :=
  [tokSUBJECT, tokFIRST, tokSECOND, tokTHIRD, tokBODY]

/-- `latex_content` (source lines 275-280): five chained `str.replace`
calls, in this fixed order; the subject is LaTeX-escaped, the four slot
values are substituted verbatim. -/
def latex_content (template subject_raw first second third rest : Str) : Str :=
  replaceAll
    (replaceAll
      (replaceAll
        (replaceAll
          (replaceAll template tokSUBJECT (latex_escape subject_raw))
          tokFIRST first)
        tokSECOND second)
      tokTHIRD third)
    tokBODY rest

/-- Template validation plus substitution (source lines 269-280): the
handler exits with an error — producing no output — when any required
placeholder is missing (`missing` non-empty), and otherwise builds
`latex_content`. -/
def assemble (template subject_raw first second third rest : Str) : Option Str :=
  let missing := required_placeholders.filter (fun p => !containsSub p template)
  if missing = [] then some (latex_content template subject_raw first second third rest)
  else none

/- Spec-side models for the assembly claims. -/

/-- A template segment: literal text or one of the five placeholders
(0 = SUBJECT, 1 = FIRST, 2 = SECOND, 3 = THIRD, 4 = BODY). -/
inductive Seg where
  | lit (s : Str)
  | tok (i : Fin 5)
deriving DecidableEq

/-- The placeholder token of index `i`. -/
def tokOf (i : Fin 5) : Str := required_placeholders.getD i.val []

/-- Render a segment list, writing `f i` for the `i`-th placeholder. -/
def renderSegs (f : Fin 5 → Str) : List Seg → Str
  | [] => []
  | .lit s :: rest => s ++ renderSegs f rest
  | .tok i :: rest => f i ++ renderSegs f rest

/-- The values the code substitutes for the five placeholders. -/
def valsFun (subject_raw first second third rest : Str) : Fin 5 → Str :=
  fun i => [latex_escape subject_raw, first, second, third, rest].getD i.val []

/-- Spec-side definition, following the words of the claim: a literal,
single-pass, non-recursive substitution over the original template —
scan left to right; where one of the tokens occurs in the original text,
emit its value and continue after the occurrence; substituted values are
never re-scanned. -/
def substSimGo (table : List (Str × Str)) : Nat → Str → Str
  | _, [] => []
  | 0, s => s
  | fuel + 1, c :: cs =>
    match table.find? (fun pv => startsWithCL pv.1 (c :: cs)) with
    | some pv => pv.2 ++ substSimGo table fuel (List.drop (pv.1.length - 1) cs)
    | none => c :: substSimGo table fuel cs

/-- Spec-side single-pass simultaneous substitution. -/
def substSimultaneous (table : List (Str × Str)) (s : Str) : Str :=
  substSimGo table s.length s

/-- The placeholder/value table of the claimed single-pass substitution,
in the code's order. -/
def specTable (subject_raw first second third rest : Str) : List (Str × Str) :=
  [(tokSUBJECT, latex_escape subject_raw), (tokFIRST, first),
   (tokSECOND, second), (tokTHIRD, third), (tokBODY, rest)]

/-- A concrete template containing all five placeholder tokens,
separated by `|`. -/
def tmplEx : Str :=
  tokSUBJECT ++ str "|" ++ tokFIRST ++ str "|" ++ tokSECOND ++ str "|" ++
    tokTHIRD ++ str "|" ++ tokBODY

/-- The segment decomposition of `tmplEx`. -/
def segsEx : List Seg :=
  [.tok 0, .lit (str "|"), .tok 1, .lit (str "|"), .tok 2, .lit (str "|"),
   .tok 3, .lit (str "|"), .tok 4]

/- ------------------------------------------------------------------
   Ingestion loop (`main.py`, lines 118-216)
   ------------------------------------------------------------------ -/

/-- The two filter settings read from the environment. -/
structure DaemonConfig where
  targetAddress : Str
  allowedSenderDomain : Str

/-- The address data of a successfully parsed message:
`get_addresses` returns (display-name, address) pairs. -/
structure ParsedEmail where
  toAddrs : List (Str × Str)
  fromAddrs : List (Str × Str)

/-- Outcome of the `handle_email.py` subprocess for an accepted message
(source lines 188-210): normal exit with a code, timeout, or an
exception while saving/invoking. -/
inductive HandlerOutcome where
  | exited (code : Int)
  | timedOut
  | raised

/-- One fetched message as the PROCESS step sees it: its UID, the parse
result (`none` when `PyzMessage.factory` raises), and — for messages
that reach the handler — the handler outcome. -/
structure FetchedMessage where
  uid : Nat
  parsed : Option ParsedEmail
  handler : HandlerOutcome

/-- The filter predicate (source lines 150-165): the lowercased target
address must appear among the lowercased to-addresses, and, when a
sender domain is configured, some from-address must end with `@` plus
the lowercased domain. -/
def acceptedByFilter (cfg : DaemonConfig) (msg : ParsedEmail) : Bool :=
  let to_emails := msg.toAddrs.map (fun p => toLowerStr p.2)
  to_emails.contains (toLowerStr cfg.targetAddress) &&
    (cfg.allowedSenderDomain = [] ||
      (msg.fromAddrs.map (fun p => p.2)).any
        (fun e => endsWithCL (toLowerStr e) ('@' :: toLowerStr cfg.allowedSenderDomain)))

/-- One iteration of the PROCESS loop body (source lines 137-213) as a
transformer of `(last_seen_uid, state file)`.  Every branch — parse
failure (lines 144-148), filter rejection (lines 153-156 and 160-165),
and the accepted path regardless of handler outcome (lines 205-213) —
ends in `last_seen_uid = max(last_seen_uid, uid); save_state(...)`. -/
def process_message_step (cfg : DaemonConfig) (st : Nat × StoreFile)
    (msg : FetchedMessage) : Nat × StoreFile :=
  match msg.parsed with
  | none =>
    let last := max st.1 msg.uid
    (last, save_state (Int.ofNat last) st.2)
  | some pe =>
    if acceptedByFilter cfg pe then
      match msg.handler with
      | _ =>
        let last := max st.1 msg.uid
        (last, save_state (Int.ofNat last) st.2)
    else
      let last := max st.1 msg.uid
      (last, save_state (Int.ofNat last) st.2)

def FETCH_BATCH_SIZE : Nat := 100

/-- Worker for `chunked` (source lines 69-71), fuel-driven. -/
def chunkedGo {α : Type} (size : Nat) : Nat → List α → List (List α)
  | _, [] => []
  | 0, l => [l]
  | fuel + 1, l => l.take size :: chunkedGo size fuel (l.drop size)

/-- `chunked(items, size)` (source lines 69-71). -/
def chunked {α : Type} (size : Nat) (l : List α) : List (List α) :=
  chunkedGo size l.length l

/-- The per-batch structure of `process_new_messages` (source lines
128-216): messages are processed batch by batch, each batch folding the
PROCESS step over its messages in order. -/
def process_new_messages (cfg : DaemonConfig) (st : Nat × StoreFile)
    (msgs : List FetchedMessage) : Nat × StoreFile :=
  (chunked FETCH_BATCH_SIZE msgs).foldl
    (fun st batch => batch.foldl (process_message_step cfg) st) st

/- ------------------------------------------------------------------
   Body routing (`handle_email.py`, lines 234-249)
   ------------------------------------------------------------------ -/

/-- The `text`/`html` fields of the intermediate JSON record. -/
structure IntermediateRecord where
  text : Option Str
  html : Option Str

/-- Python truthiness of an optional string. -/
def truthyOpt : Option Str → Bool
  | none => false
  | some s => !s.isEmpty

/-- `raw_body` (source lines 235-238): prefer a truthy `html` over a
truthy `text`, strip, and default to `"No body content"`. -/
def rawBodyOf (r : IntermediateRecord) : Str :=
  let b := if truthyOpt r.html then r.html.getD []
           else if truthyOpt r.text then r.text.getD [] else []
  let b2 := pyStrip b
  if b2 = [] then str "No body content" else b2

/-- `is_html` (source line 241): `bool(data.get("html"))`. -/
def is_html (r : IntermediateRecord) : Bool := truthyOpt r.html

/-- The dispatch of source lines 243-249, parameterised by the external
HTML parser (BeautifulSoup): the HTML path runs tree conversion and the
LaTeX paragraph splitter; the plain-text path runs `split_paragraphs`. -/
def computeSlots (parseHtml : Str → RichNode) (r : IntermediateRecord) : Slots :=
  if is_html r then split_latex_paragraphs (html_to_latex (parseHtml (rawBodyOf r)))
  else split_paragraphs (rawBodyOf r)

/-- A concrete configuration used to exercise the filter. -/
def cfgEx : DaemonConfig := ⟨str "target@example.com", str "good.org"⟩

/-- Three concrete messages covering the PROCESS branches: one that
fails to parse, one filter-rejected, one accepted whose handler times
out. -/
def msgsEx : List FetchedMessage :=
  [⟨5, none, .raised⟩,
   ⟨6, some ⟨[(str "Bob", str "bob@other.com")], [(str "Eve", str "eve@bad.org")]⟩,
    .exited 0⟩,
   ⟨7, some ⟨[([], str "TARGET@example.com")], [([], str "alice@GOOD.org")]⟩,
    .timedOut⟩]

/- ------------------------------------------------------------------
   Spec-side models for segmentation round-trip and the HTML example
   ------------------------------------------------------------------ -/

/-- Spec-side grouping of lines into maximal runs of non-blank lines,
built by a right fold (independently of the code's left-to-right
accumulator loop): a blank line closes a run. -/
def groupsR : List Str → List (List Str)
  | [] => []
  | l :: ls =>
    if pyStrip l = [] then [] :: groupsR ls
    else
      match groupsR ls with
      | [] => [[l]]
      | g :: gs => (l :: g) :: gs

/-- Spec-side normalization: the original content's non-blank lines,
with leading/trailing blank lines trimmed and internal blank-line runs
collapsed to single paragraph breaks. -/
def normalizeText (text : Str) : Str :=
  joinSep (str "\n\n")
    (((groupsR (splitlinesPy text)).filter (· ≠ [])).map (joinSep ['\n']))

/-- Replace each injected line-break marker back by the newline it
replaced. -/
def unmarkLineBreaks (s : Str) : Str := replaceAll s nlMark ['\n']

/-- Rejoin the four returned slots (non-empty ones, in order), reading
injected line-break markers as the newlines they replaced. -/
def rejoinSlots (sl : Slots) : Str :=
  joinSep (str "\n\n")
    (([unmarkLineBreaks sl.first, unmarkLineBreaks sl.second,
       unmarkLineBreaks sl.third, sl.rest]).filter (· ≠ []))

/-- Prepend the paragraph accumulated in `current` onto a group list:
when lines continue a run, the accumulator belongs to the first group.
(Bridge between the code's accumulator loop and the right-fold
grouping.) -/
def headMerge (cur : List Str) (gs : List (List Str)) : List (List Str) :=
  if cur = [] then gs
  else
    match gs with
    | [] => [cur]
    | g :: rest => (cur ++ g) :: rest

/-- The bold-emphasis wrapper of the target markup. -/
def textbfWrap (s : Str) : Str := str "\\textbf\x7b" ++ s ++ ['\x7d']

/-- The bulleted-list wrapper: one `\item` entry per element, joined
inside an `itemize` environment. -/
def itemizeWrap (entries : List Str) : Str :=
  str "\\begin\x7bitemize\x7d\n" ++
    joinSep ['\n'] (entries.map (fun e => str "\\item " ++ e)) ++
    str "\n\\end\x7bitemize\x7d"

/-- The tree BeautifulSoup's `html.parser` produces for
`"<p>Hi <b>there</b></p><ul><li>A</li><li>B</li></ul>"`: a document
root with a paragraph (text then bold text) and a two-item list. -/
def exampleHtmlTree : RichNode :=
  .elem (str "[document]") []
    [.elem (str "p") [] [.text (str "Hi "), .elem (str "b") [] [.text (str "there")]],
     .elem (str "ul") []
       [.elem (str "li") [] [.text (str "A")],
        .elem (str "li") [] [.text (str "B")]]]

/- ==================================================================
   THEOREMS
   ================================================================== -/

/- ------------------------------------------------------------------
   Basic facts about the string model
   ------------------------------------------------------------------ -/

theorem replaceAllGo_irrel (pat val : Str) :
    ∀ f1 f2 s, s.length ≤ f1 → s.length ≤ f2 →
      replaceAllGo pat val f1 s = replaceAllGo pat val f2 s := by
  intro f1
  induction f1 with
  | zero =>
    intro f2 s h1 _
    have : s = [] := List.eq_nil_of_length_eq_zero (Nat.le_zero.1 h1)
    subst this
    cases f2 <;> rfl
  | succ g ih =>
    intro f2 s h1 h2
    cases s with
    | nil => cases f2 <;> rfl
    | cons c cs =>
      cases f2 with
      | zero => simp at h2
      | succ g2 =>
        simp only [replaceAllGo]
        by_cases h : startsWithCL pat (c :: cs)
        · simp only [h, if_true]
          congr 1
          exact ih g2 _ (by simp [List.length_drop]; simp at h1; omega)
            (by simp [List.length_drop]; simp at h2; omega)
        · simp only [h, if_false, Bool.false_eq_true]
          congr 1
          exact ih g2 cs (by simp at h1; omega) (by simp at h2; omega)

theorem replaceAll_nil (pat val : Str) : replaceAll [] pat val = [] := rfl

theorem replaceAll_cons (pat val : Str) (c : Char) (cs : Str) :
    replaceAll (c :: cs) pat val =
      if startsWithCL pat (c :: cs) then
        val ++ replaceAll (List.drop (pat.length - 1) cs) pat val
      else c :: replaceAll cs pat val := by
  show replaceAllGo pat val (cs.length + 1) (c :: cs) = _
  simp only [replaceAllGo]
  by_cases h : startsWithCL pat (c :: cs)
  · simp only [h, if_true]
    congr 1
    exact replaceAllGo_irrel pat val cs.length _ _
      (by simp [List.length_drop]) (le_refl _)
  · simp only [h, if_false, Bool.false_eq_true]
    rfl

theorem startsWithCL_append (pat rest : Str) :
    startsWithCL pat (pat ++ rest) = true := by
  induction pat with
  | nil => rfl
  | cons p ps ih => simp [startsWithCL, ih]

theorem startsWithCL_iff (pat : Str) :
    ∀ u, startsWithCL pat u = true ↔ ∃ rest, u = pat ++ rest := by
  induction pat with
  | nil =>
    intro u
    simp [startsWithCL]
  | cons p ps ih =>
    intro u
    cases u with
    | nil =>
      simp [startsWithCL]
    | cons c cs =>
      simp only [startsWithCL, Bool.and_eq_true, decide_eq_true_eq, ih cs]
      constructor
      · rintro ⟨rfl, rest, rfl⟩
        exact ⟨rest, rfl⟩
      · rintro ⟨rest, h⟩
        cases h
        exact ⟨rfl, rest, rfl⟩

theorem startsWithCL_false_of_mismatch (pat u : Str) :
    ∀ j, j < pat.length → j < u.length →
      pat.getD j ' ' ≠ u.getD j ' ' → startsWithCL pat u = false := by
  induction pat generalizing u with
  | nil => intro j hj _ _; simp at hj
  | cons p ps ih =>
    intro j hj hju hne
    cases u with
    | nil => simp at hju
    | cons c cs =>
      cases j with
      | zero =>
        simp only [List.getD_cons_zero] at hne
        simp [startsWithCL, hne]
      | succ n =>
        simp only [List.getD_cons_succ] at hne
        simp only [startsWithCL, Bool.and_eq_false_iff]
        by_cases hpc : p = c
        · right
          exact ih cs n (by simp at hj; omega) (by simp at hju; omega) hne
        · left
          simp [hpc]

theorem cannotMatchAt_startsWith_false {pat t : Str}
    (h : cannotMatchAt pat t) (rest : Str) (hne : t ≠ []) :
    startsWithCL pat (t ++ rest) = false := by
  obtain ⟨j, hj, hjt, hmis⟩ := h 0 (by cases t with | nil => exact absurd rfl hne | cons a l => simp)
  simp only [Nat.zero_add] at hjt hmis
  refine startsWithCL_false_of_mismatch pat (t ++ rest) j hj (by simp; omega) ?_
  rwa [List.getD_append _ _ _ _ hjt]

theorem cannotMatchAt_of_cons {pat : Str} {c : Char} {cs : Str}
    (h : cannotMatchAt pat (c :: cs)) : cannotMatchAt pat cs := by
  intro i hi
  obtain ⟨j, h1, h2, h3⟩ := h (i + 1) (by simp; omega)
  refine ⟨j, h1, by simp at h2 ⊢; omega, ?_⟩
  have he : i + 1 + j = (i + j) + 1 := by omega
  rw [he, List.getD_cons_succ] at h3
  exact h3

theorem replaceAll_passThrough (pat val : Str) :
    ∀ (t rest : Str), cannotMatchAt pat t →
      replaceAll (t ++ rest) pat val = t ++ replaceAll rest pat val := by
  intro t
  induction t with
  | nil => intro rest _; simp
  | cons c cs ih =>
    intro rest h
    have h0 : startsWithCL pat ((c :: cs) ++ rest) = false :=
      cannotMatchAt_startsWith_false h rest (by simp)
    rw [List.cons_append] at h0
    rw [List.cons_append, replaceAll_cons, if_neg (by rw [h0]; simp)]
    exact congrArg (c :: ·) (ih rest (cannotMatchAt_of_cons h))

theorem replaceAll_matchHead (pat val rest : Str) (hne : pat ≠ []) :
    replaceAll (pat ++ rest) pat val = val ++ replaceAll rest pat val := by
  cases pat with
  | nil => exact absurd rfl hne
  | cons p ps =>
    rw [List.cons_append, replaceAll_cons,
      if_pos (by rw [← List.cons_append]; exact startsWithCL_append _ _)]
    simp [List.drop_left]

theorem replaceAll_of_cannotMatch (pat val t : Str) (h : cannotMatchAt pat t) :
    replaceAll t pat val = t := by
  have := replaceAll_passThrough pat val t [] h
  simpa [replaceAll_nil] using this

theorem noTokenSeed_spec :
    ∀ t : Str, noTokenSeed t = true →
      ∀ i, i < t.length → t.getD i ' ' = '\x7b' →
        i + 1 < t.length ∧ t.getD (i + 1) ' ' ≠ '\x7b' := by
  intro t
  induction t with
  | nil => intro _ i hi; simp at hi
  | cons c cs ih =>
    intro h i hi hc
    cases cs with
    | nil =>
      simp only [noTokenSeed, Bool.not_eq_true', decide_eq_false_iff_not] at h
      have hi0 : i = 0 := by simp at hi; omega
      subst hi0
      simp only [List.getD_cons_zero] at hc
      exact absurd hc h
    | cons d rest =>
      simp only [noTokenSeed, Bool.and_eq_true, Bool.not_eq_true',
        Bool.and_eq_false_iff, decide_eq_false_iff_not] at h
      cases i with
      | zero =>
        simp only [List.getD_cons_zero] at hc
        have hd : d ≠ '\x7b' := by
          rcases h.1 with h1 | h1
          · exact absurd hc h1
          · exact h1
        exact ⟨by simp, by simpa [List.getD_cons_succ] using hd⟩
      | succ n =>
        have hih := ih (by simpa [noTokenSeed] using h.2) n
          (by simp at hi ⊢; omega) (by simpa [List.getD_cons_succ] using hc)
        exact ⟨by simp at hih ⊢; omega, by simpa [List.getD_cons_succ] using hih.2⟩

theorem cannotMatchAt_of_noTokenSeed (pat t : Str)
    (hp0 : pat.getD 0 ' ' = '\x7b') (hp1 : pat.getD 1 ' ' = '\x7b')
    (hplen : 2 ≤ pat.length) (h : noTokenSeed t = true) :
    cannotMatchAt pat t := by
  intro i hi
  by_cases hc : t.getD i ' ' = '\x7b'
  · obtain ⟨h1, h2⟩ := noTokenSeed_spec t h i hi hc
    refine ⟨1, by omega, by omega, ?_⟩
    rw [hp1]
    exact fun he => h2 he.symm
  · refine ⟨0, by omega, by omega, ?_⟩
    rw [Nat.add_zero, hp0]
    exact fun he => hc he.symm

theorem latex_escape_append (s t : Str) :
    latex_escape (s ++ t) = latex_escape s ++ latex_escape t := by
  induction s with
  | nil => simp [latex_escape]
  | cons c cs ih => simp [latex_escape, ih]

/-- C4: `escape` replaces each occurrence of a character in the reserved
set by its defined safe escape sequence, leaves every other character
unchanged in order, and maps the empty string to the empty string.
Stated as: empty-to-empty; the escape of a concatenation is the
concatenation of the escapes (so every character is handled
independently, in order); a reserved character becomes its table entry;
any other character passes through unchanged. -/
theorem latex_escape_charwise :
    latex_escape [] = [] ∧
    (∀ s t : Str, latex_escape (s ++ t) = latex_escape s ++ latex_escape t) ∧
    (∀ c : Char, isLatexSpecial c = true → latex_escape [c] = latexReplacement c) ∧
    (∀ c : Char, isLatexSpecial c = false → latex_escape [c] = [c]) := by
  refine ⟨rfl, latex_escape_append, ?_, ?_⟩
  · intro c hc
    simp [latex_escape, hc]
  · intro c hc
    simp [latex_escape, hc]

/-- Witness for C4 at concrete inputs: `%` is rewritten to `\%`, an
ordinary letter passes through. -/
theorem latex_escape_charwise_witness :
    latex_escape ['%'] = latexReplacement '%' ∧ latex_escape ['a'] = ['a'] :=
  ⟨latex_escape_charwise.2.2.1 '%' (by decide),
   latex_escape_charwise.2.2.2 'a' (by decide)⟩


/- Round-trip facts about decimal printing and parsing. -/

/-- Little-endian value of a digit list. -/
def parseLE : List Nat → Nat
  | [] => 0
  | d :: ds => d + 10 * parseLE ds

theorem natDecRev_spec :
    ∀ fuel n, n ≤ fuel →
      parseLE (natDecRev fuel n) = n ∧
      (∀ d ∈ natDecRev fuel n, d < 10) ∧ natDecRev fuel n ≠ [] := by
  intro fuel
  induction fuel with
  | zero =>
    intro n hn
    interval_cases n
    simp [natDecRev, parseLE]
  | succ fuel ih =>
    intro n hn
    by_cases h : n < 10
    · refine ⟨by simp [natDecRev, h, parseLE], ?_, by simp [natDecRev, h]⟩
      intro d hd
      simp [natDecRev, h] at hd
      omega
    · have hdiv : n / 10 ≤ fuel := by
        have := Nat.div_lt_self (by omega : 0 < n) (by omega : 1 < 10)
        omega
      obtain ⟨h1, h2, h3⟩ := ih (n / 10) hdiv
      refine ⟨?_, ?_, ?_⟩
      · simp [natDecRev, h, parseLE, h1]
        omega
      · intro d hd
        simp [natDecRev, h] at hd
        rcases hd with hd | hd
        · omega
        · exact h2 d hd
      · simp [natDecRev, h]

theorem parseBE_fold_reverse (ds : List Nat) :
    ∀ acc : Nat,
      List.foldl (fun a d => a * 10 + d) acc ds.reverse =
        acc * 10 ^ ds.length + parseLE ds := by
  induction ds with
  | nil => intro acc; simp [parseLE]
  | cons d tail ih =>
    intro acc
    simp only [List.reverse_cons, List.foldl_append, List.foldl_cons,
      List.foldl_nil, ih, parseLE, List.length_cons]
    ring

theorem digitVal_digitChar {d : Nat} (h : d < 10) : digitVal (digitChar d) = d := by
  interval_cases d <;> decide

theorem digitChar_isDigit {d : Nat} (h : d < 10) : (digitChar d).isDigit = true := by
  interval_cases d <;> decide

theorem parseDigitsBE_map_digitChar (ds : List Nat) (h : ∀ d ∈ ds, d < 10) :
    parseDigitsBE (ds.map digitChar) = List.foldl (fun a d => a * 10 + d) 0 ds := by
  unfold parseDigitsBE
  induction ds with
  | nil => simp
  | cons d tail ih =>
    have hd : d < 10 := h d (by simp)
    rw [List.map_cons, List.foldl_cons, List.foldl_cons, digitVal_digitChar hd]
    exact foldl_congr_aux tail (fun x hx => h x (by simp [hx])) _
where
  foldl_congr_aux (l : List Nat) (hl : ∀ d ∈ l, d < 10) :
      ∀ acc : Nat,
        List.foldl (fun a c => a * 10 + digitVal c) acc (l.map digitChar) =
          List.foldl (fun a d => a * 10 + d) acc l := by
    induction l with
    | nil => intro acc; simp
    | cons x xs ihx =>
      intro acc
      rw [List.map_cons, List.foldl_cons, List.foldl_cons,
        digitVal_digitChar (hl x (by simp))]
      exact ihx (fun d hd => hl d (by simp [hd])) _

/-- The characters of `natToDecimal n` are decimal digits. -/
theorem natToDecimal_digits (n : Nat) :
    ∀ c ∈ natToDecimal n, c.isDigit = true := by
  intro c hc
  unfold natToDecimal at hc
  obtain ⟨d, hd, rfl⟩ := List.mem_map.1 hc
  have := (natDecRev_spec n n Nat.le.refl).2.1 d (List.mem_reverse.1 hd)
  exact digitChar_isDigit this

/-- Parsing the decimal print of a natural number recovers it. -/
theorem parseDigitsBE_natToDecimal (n : Nat) :
    parseDigitsBE (natToDecimal n) = n := by
  obtain ⟨h1, h2, _⟩ := natDecRev_spec n n Nat.le.refl
  unfold natToDecimal
  rw [parseDigitsBE_map_digitChar _ (fun d hd => h2 d (List.mem_reverse.1 hd))]
  rw [parseBE_fold_reverse]
  simpa using h1


theorem dropWhile_id_of_all_false (p : Char → Bool) (s : Str)
    (h : ∀ c ∈ s, p c = false) : s.dropWhile p = s := by
  cases s with
  | nil => rfl
  | cons c cs => rw [List.dropWhile_cons, h c (by simp)]; simp

theorem pyStrip_id_of_no_space (s : Str)
    (h : ∀ c ∈ s, isPySpace c = false) : pyStrip s = s := by
  rw [pyStrip, dropWhile_id_of_all_false _ _ h, dropEndWhile,
    dropWhile_id_of_all_false _ _ (fun c hc => h c (List.mem_reverse.1 hc)),
    List.reverse_reverse]

/-- Every character of `natToDecimal n` is the image of a digit. -/
theorem natToDecimal_mem (n : Nat) :
    ∀ c ∈ natToDecimal n, ∃ d, d < 10 ∧ c = digitChar d := by
  intro c hc
  unfold natToDecimal at hc
  obtain ⟨d, hd, rfl⟩ := List.mem_map.1 hc
  exact ⟨d, (natDecRev_spec n n Nat.le.refl).2.1 d (List.mem_reverse.1 hd), rfl⟩

theorem digitChar_facts {d : Nat} (h : d < 10) :
    (digitChar d).isDigit = true ∧ isPySpace (digitChar d) = false ∧
      digitChar d ≠ '+' ∧ digitChar d ≠ '-' ∧ digitChar d ≠ '_' := by
  interval_cases d <;> refine ⟨by decide, by decide, by decide, by decide, by decide⟩

theorem validIntTail_of_digits (l : Str) (h : ∀ c ∈ l, c.isDigit = true) :
    validIntTail l = true := by
  induction l with
  | nil => rfl
  | cons c cs ih =>
    have hc : c.isDigit = true := h c (by simp)
    have hne : ¬(c = '_') := by
      intro he
      rw [he] at hc
      exact absurd hc (by decide)
    unfold validIntTail
    rw [if_neg hne]
    simp [hc, ih (fun x hx => h x (by simp [hx]))]

theorem natToDecimal_ne_nil (n : Nat) : natToDecimal n ≠ [] := by
  unfold natToDecimal
  have := (natDecRev_spec n n Nat.le.refl).2.2
  simp [this]

/-- Parsing `str(n)` (a stripped all-digit string) yields `n`. -/
theorem parsePyInt_natToDecimal (n : Nat) :
    parsePyInt (natToDecimal n) = some (Int.ofNat n) := by
  have hmem := natToDecimal_mem n
  have hdig : ∀ c ∈ natToDecimal n, c.isDigit = true := by
    intro c hc
    obtain ⟨d, hd, rfl⟩ := hmem c hc
    exact (digitChar_facts hd).1
  have hfil : (natToDecimal n).filter (· ≠ '_') = natToDecimal n := by
    rw [List.filter_eq_self]
    intro c hc
    obtain ⟨d, hd, rfl⟩ := hmem c hc
    simpa using (digitChar_facts hd).2.2.2.2
  cases hl : natToDecimal n with
  | nil => exact absurd hl (natToDecimal_ne_nil n)
  | cons c cs =>
    obtain ⟨d, hd, hcd⟩ := hmem c (by rw [hl]; simp)
    have hplus : ¬(c = '+') := by rw [hcd]; exact (digitChar_facts hd).2.2.1
    have hminus : ¬(c = '-') := by rw [hcd]; exact (digitChar_facts hd).2.2.2.1
    have hbody : validIntBody (c :: cs) = true := by
      unfold validIntBody
      have h1 : c.isDigit = true := hdig c (by rw [hl]; simp)
      have h2 : validIntTail cs = true :=
        validIntTail_of_digits cs (fun x hx => hdig x (by rw [hl]; simp [hx]))
      simp [h1, h2]
    simp only [parsePyInt]
    rw [if_neg hplus, if_neg hminus, if_pos hbody, ← hl, hfil,
      parseDigitsBE_natToDecimal]

/-- Saving then loading recovers any non-negative watermark. -/
theorem load_state_save_state (z : Int) (hz : 0 ≤ z) (store : StoreFile) :
    load_state (save_state z store) = z := by
  have hsave : save_state z store = some (natToDecimal z.toNat) := by
    unfold save_state intToDecimal
    rw [if_neg (by omega)]
  rw [hsave]
  unfold load_state
  have hstrip : pyStrip (natToDecimal z.toNat) = natToDecimal z.toNat := by
    apply pyStrip_id_of_no_space
    intro c hc
    obtain ⟨d, hd, rfl⟩ := natToDecimal_mem _ c hc
    exact (digitChar_facts hd).2.1
  simp only [hstrip]
  rw [if_neg (natToDecimal_ne_nil z.toNat), parsePyInt_natToDecimal]
  simp [Int.toNat_of_nonneg hz]

/-- C8: `load` never throws: it is a total function that returns `0` when
the file is absent, when the (stripped) content is empty, and when the
content is not a valid integer; and it returns the stored integer when
the content is one — in particular the decimal print of any natural
number loads back as that number. -/
theorem load_state_total_default :
    load_state none = 0 ∧
    (∀ s : Str, pyStrip s = [] → load_state (some s) = 0) ∧
    (∀ s : Str, parsePyInt (pyStrip s) = none → load_state (some s) = 0) ∧
    (∀ (s : Str) (z : Int), parsePyInt (pyStrip s) = some z →
      load_state (some s) = z) ∧
    (∀ n : Nat, load_state (some (natToDecimal n)) = (n : Int)) := by
  refine ⟨rfl, ?_, ?_, ?_, ?_⟩
  · intro s h
    unfold load_state
    simp [h]
  · intro s h
    unfold load_state
    by_cases he : pyStrip s = [] <;> simp [he, h]
  · intro s z h
    unfold load_state
    have he : ¬(pyStrip s = []) := by
      intro he
      rw [he] at h
      simp [parsePyInt] at h
    simp [he, h]
  · intro n
    have h0 : (0 : Int) ≤ (n : Int) := by positivity
    have := load_state_save_state (n : Int) h0 none
    rw [show save_state (n : Int) none = some (natToDecimal n) by
      unfold save_state intToDecimal
      rw [if_neg (not_lt.mpr h0)]
      norm_num] at this
    exact this

/-- Witness for C8: a corrupt file loads as `0`; a file holding `" 42 "`
loads as `42`. -/
theorem load_state_total_default_witness :
    load_state (some (str "garbage")) = 0 ∧ load_state (some (str " 42 ")) = 42 :=
  ⟨load_state_total_default.2.2.1 (str "garbage") (by decide),
   load_state_total_default.2.2.2.1 (str " 42 ") 42 (by decide)⟩

/- Folding a sequence of saves leaves exactly the last value in the
store. -/

theorem getLastD_indep (x : Int) (l : List Int) (a b : Int) :
    (x :: l).getLastD a = (x :: l).getLastD b := by
  rw [List.getLastD_cons, List.getLastD_cons]

theorem foldl_save_state (l : List Int) (x : Int) :
    ∀ st0 : StoreFile,
      (x :: l).foldl (fun st z => save_state z st) st0 =
        some (intToDecimal ((x :: l).getLastD 0)) := by
  induction l generalizing x with
  | nil => intro st0; rfl
  | cons y ys ih =>
    intro st0
    rw [List.foldl_cons, List.getLastD_cons, getLastD_indep y ys x 0]
    exact ih y _

theorem getLastD_mem (l : List Int) (x : Int) :
    (x :: l).getLastD 0 ∈ x :: l := by
  induction l generalizing x with
  | nil => simp [List.getLastD_cons]
  | cons y ys ih =>
    rw [List.getLastD_cons, getLastD_indep y ys x 0]
    exact List.mem_cons_of_mem x (ih y)

theorem foldl_max_chain (l : List Int) :
    ∀ (x a : Int), List.Chain' (· ≤ ·) (x :: l) → a ≤ x →
      List.foldl max a (x :: l) = (x :: l).getLastD 0 := by
  induction l with
  | nil =>
    intro x a _ hax
    simp [List.getLastD_cons, max_eq_right hax]
  | cons y ys ih =>
    intro x a hchain hax
    have hxy : x ≤ y := (List.chain'_cons.1 hchain).1
    rw [List.foldl_cons, max_eq_right hax, List.getLastD_cons,
      getLastD_indep y ys x 0]
    exact ih y x (List.chain'_cons.1 hchain).2 hxy

/-- C2: for any sequence of saves with non-decreasing non-negative
arguments, loading after any non-empty prefix returns the maximum value
saved so far. -/
theorem watermark_load_max_of_prefix (saves p : List Int) (st0 : StoreFile)
    (hmono : List.Chain' (· ≤ ·) saves) (hpos : ∀ z ∈ saves, 0 ≤ z)
    (hp : ∃ rest, p ++ rest = saves) (hne : p ≠ []) :
    load_state (p.foldl (fun st z => save_state z st) st0) =
      p.foldl max 0 := by
  obtain ⟨rest, hrest⟩ := hp
  have hchainp : List.Chain' (· ≤ ·) p := by
    rw [← hrest] at hmono
    exact (List.chain'_append.1 hmono).1
  have hposp : ∀ z ∈ p, 0 ≤ z := fun z hz =>
    hpos z (by rw [← hrest]; exact List.mem_append_left _ hz)
  cases p with
  | nil => exact absurd rfl hne
  | cons x l =>
    rw [foldl_save_state l x st0]
    have hx : (0 : Int) ≤ x := hposp x (by simp)
    have hlast : (0 : Int) ≤ (x :: l).getLastD 0 :=
      hposp _ (getLastD_mem l x)
    rw [show some (intToDecimal ((x :: l).getLastD 0)) =
        save_state ((x :: l).getLastD 0) st0 from rfl]
    rw [load_state_save_state _ hlast, foldl_max_chain l x 0 hchainp hx]

/-- Witness for C2: after the save sequence `1, 3` (a prefix of the
non-decreasing run `1, 3, 7`) the store loads as `3`, the maximum so
far. -/
theorem watermark_load_max_of_prefix_witness :
    load_state ([(1 : Int), 3].foldl (fun st z => save_state z st) none) =
      [(1 : Int), 3].foldl max 0 :=
  watermark_load_max_of_prefix [1, 3, 7] [1, 3] none
    (by norm_num [List.chain'_cons]) (by decide) ⟨[7], by decide⟩ (by decide)

/- ------------------------------------------------------------------
   C1: the watermark is advanced and persisted per message
   ------------------------------------------------------------------ -/

/-- Every branch of the PROCESS body ends the same way: advance
`last_seen_uid` to its maximum with the message UID and persist it. -/
theorem process_message_step_eq (cfg : DaemonConfig) (st : Nat × StoreFile)
    (msg : FetchedMessage) :
    process_message_step cfg st msg =
      (max st.1 msg.uid, save_state ((max st.1 msg.uid : Nat) : Int) st.2) := by
  unfold process_message_step
  rcases msg.parsed with _ | pe
  · rfl
  · by_cases hf : acceptedByFilter cfg pe <;> simp [hf]

/-- Folding a function chunk by chunk over `chunkedGo` equals folding it
over the flat list. -/
theorem foldl_chunkedGo {α β : Type} (f : β → α → β) (size : Nat) (hs : 0 < size) :
    ∀ (fuel : Nat) (l : List α) (st : β), l.length ≤ fuel →
      (chunkedGo size fuel l).foldl (fun acc batch => batch.foldl f acc) st =
        l.foldl f st := by
  intro fuel
  induction fuel with
  | zero =>
    intro l st h
    have : l = [] := List.eq_nil_of_length_eq_zero (Nat.le_zero.1 h)
    subst this
    rfl
  | succ fu ih =>
    intro l st h
    cases l with
    | nil => rfl
    | cons a l' =>
      show ((a :: l').take size :: chunkedGo size fu ((a :: l').drop size)).foldl
          (fun acc batch => batch.foldl f acc) st = (a :: l').foldl f st
      rw [List.foldl_cons,
        ih ((a :: l').drop size) (((a :: l').take size).foldl f st)
          (by simp [List.length_drop] at h ⊢; omega)]
      rw [← List.foldl_append, List.take_append_drop]

/-- C1: after PROCESS examines the `i`-th message — unparseable,
filter-rejected, or accepted (with any handler outcome) — the
watermark is at least that message's UID and is already persisted in
the store; this state is exactly the state produced by the step at
message `i` (so it holds before message `i+1` is examined); and
processing the batches of `process_new_messages` equals the flat
message-by-message fold, so persistence happens per message, never only
at the end of a batch. -/
theorem watermark_advanced_per_message (cfg : DaemonConfig)
    (st0 : Nat × StoreFile) (msgs : List FetchedMessage) (i : Nat)
    (h : i < msgs.length) :
    (msgs.get ⟨i, h⟩).uid ≤
        ((msgs.take (i + 1)).foldl (process_message_step cfg) st0).1 ∧
    load_state ((msgs.take (i + 1)).foldl (process_message_step cfg) st0).2 =
      ((((msgs.take (i + 1)).foldl (process_message_step cfg) st0).1 : Nat) : Int) ∧
    (msgs.take (i + 1)).foldl (process_message_step cfg) st0 =
      process_message_step cfg ((msgs.take i).foldl (process_message_step cfg) st0)
        (msgs.get ⟨i, h⟩) ∧
    process_new_messages cfg st0 msgs = msgs.foldl (process_message_step cfg) st0 := by
  have hsplit : msgs.take (i + 1) = msgs.take i ++ [msgs.get ⟨i, h⟩] := by
    rw [List.take_succ]
    congr 1
    rw [List.getElem?_eq_getElem h]
    rfl
  have hstep : (msgs.take (i + 1)).foldl (process_message_step cfg) st0 =
      process_message_step cfg ((msgs.take i).foldl (process_message_step cfg) st0)
        (msgs.get ⟨i, h⟩) := by
    rw [hsplit, List.foldl_append, List.foldl_cons, List.foldl_nil]
  refine ⟨?_, ?_, hstep, ?_⟩
  · rw [hstep, process_message_step_eq]
    exact le_max_right _ _
  · rw [hstep, process_message_step_eq]
    exact load_state_save_state _ (by positivity)
      ((msgs.take i).foldl (process_message_step cfg) st0).2
  · unfold process_new_messages chunked
    exact foldl_chunkedGo (process_message_step cfg) FETCH_BATCH_SIZE
      (by norm_num [FETCH_BATCH_SIZE]) msgs.length msgs st0 (le_refl _)

/-- Witness for C1 at the concrete batch `msgsEx` and index 1 (the
filter-rejected message with UID 6, preceded by the unparseable UID 5
and followed by the accepted, timed-out UID 7). -/
theorem watermark_advanced_per_message_witness :
    (msgsEx.get ⟨1, by decide⟩).uid ≤
        ((msgsEx.take 2).foldl (process_message_step cfgEx) (0, none)).1 ∧
    load_state ((msgsEx.take 2).foldl (process_message_step cfgEx) (0, none)).2 =
      ((((msgsEx.take 2).foldl (process_message_step cfgEx) (0, none)).1 : Nat) : Int) ∧
    (msgsEx.take 2).foldl (process_message_step cfgEx) (0, none) =
      process_message_step cfgEx
        ((msgsEx.take 1).foldl (process_message_step cfgEx) (0, none))
        (msgsEx.get ⟨1, by decide⟩) ∧
    process_new_messages cfgEx (0, none) msgsEx =
      msgsEx.foldl (process_message_step cfgEx) (0, none) :=
  watermark_advanced_per_message cfgEx (0, none) msgsEx 1 (by decide)

/- ------------------------------------------------------------------
   C10: the filter predicate is case-insensitive
   ------------------------------------------------------------------ -/

/-- C10: the accept/reject decision of the filter depends on the target
address, the allowed sender domain, and the messages' to/from addresses
only through their lowercasings: any case alteration of letters (which
leaves `str.lower` images unchanged) leaves the decision unchanged,
because the target is matched against lowercased to-addresses and the
domain allow-list against lowercased from-address suffixes. -/
theorem anyOverMap {α β : Type} (f : α → β) (p : β → Bool) :
    ∀ l : List α, (l.map f).any p = l.any (fun a => p (f a)) := by
  intro l
  induction l with
  | nil => rfl
  | cons x xs ih => simp [ih]

theorem acceptedByFilter_eq (cfg : DaemonConfig) (pe : ParsedEmail) :
    acceptedByFilter cfg pe =
      ((pe.toAddrs.map (fun p => toLowerStr p.2)).contains
          (toLowerStr cfg.targetAddress) &&
        (decide (cfg.allowedSenderDomain = []) ||
          (pe.fromAddrs.map (fun p => toLowerStr p.2)).any
            (fun e => endsWithCL e ('@' :: toLowerStr cfg.allowedSenderDomain)))) := by
  unfold acceptedByFilter
  simp only [anyOverMap]

theorem filter_case_insensitive (cfg cfg' : DaemonConfig) (pe pe' : ParsedEmail)
    (htarget : toLowerStr cfg.targetAddress = toLowerStr cfg'.targetAddress)
    (hdomain : toLowerStr cfg.allowedSenderDomain = toLowerStr cfg'.allowedSenderDomain)
    (hto : pe.toAddrs.map (fun p => toLowerStr p.2) =
      pe'.toAddrs.map (fun p => toLowerStr p.2))
    (hfrom : pe.fromAddrs.map (fun p => toLowerStr p.2) =
      pe'.fromAddrs.map (fun p => toLowerStr p.2)) :
    acceptedByFilter cfg pe = acceptedByFilter cfg' pe' := by
  have hlen : ∀ l : Str, toLowerStr l = [] ↔ l = [] := by
    intro l
    simp [toLowerStr]
  have hde : decide (cfg.allowedSenderDomain = []) =
      decide (cfg'.allowedSenderDomain = []) := by
    rw [decide_eq_decide, ← hlen cfg.allowedSenderDomain, hdomain, hlen]
  rw [acceptedByFilter_eq, acceptedByFilter_eq, hto, htarget, hfrom, hdomain, hde]

/-- Witness for C10: altering letter case in the configured target,
domain, and the message's to/from addresses leaves the decision
unchanged on a concrete accepted message. -/
theorem filter_case_insensitive_witness :
    acceptedByFilter ⟨str "target@example.com", str "good.org"⟩
        ⟨[([], str "target@example.com")], [([], str "alice@good.org")]⟩ =
      acceptedByFilter ⟨str "TARGET@Example.com", str "GOOD.org"⟩
        ⟨[([], str "Target@Example.Com")], [([], str "ALICE@good.ORG")]⟩ :=
  filter_case_insensitive _ _ _ _ (by decide) (by decide) (by decide) (by decide)

/- ------------------------------------------------------------------
   C9: a truthy html field routes exclusively through the HTML path
   ------------------------------------------------------------------ -/

/-- C9: when the record's `html` field is present and non-empty, the
pipeline computes the slots through the HTML tree-to-markup path and the
result does not depend on the `text` field at all; the plain-text
segmenter runs exactly when `html` is absent or empty. -/
theorem html_path_exclusive (parseHtml : Str → RichNode) (h : Str)
    (t t' : Option Str) (hne : h ≠ []) :
    (computeSlots parseHtml ⟨t, some h⟩ = computeSlots parseHtml ⟨t', some h⟩ ∧
      computeSlots parseHtml ⟨t, some h⟩ =
        split_latex_paragraphs (html_to_latex (parseHtml (rawBodyOf ⟨t, some h⟩)))) ∧
    (∀ r : IntermediateRecord, is_html r = false →
      computeSlots parseHtml r = split_paragraphs (rawBodyOf r)) := by
  have htruthy : truthyOpt (some h) = true := by
    cases h with
    | nil => exact absurd rfl hne
    | cons c cs => rfl
  have hraw : ∀ t0 : Option Str, rawBodyOf ⟨t0, some h⟩ = rawBodyOf ⟨t, some h⟩ := by
    intro t0
    unfold rawBodyOf
    simp only [htruthy, if_true]
  refine ⟨⟨?_, ?_⟩, ?_⟩
  · unfold computeSlots
    simp only [is_html, htruthy, if_true, hraw t']
  · unfold computeSlots
    simp only [is_html, htruthy, if_true]
  · intro r hr
    unfold computeSlots
    simp [is_html] at hr
    simp [is_html, hr]

/-- Witness for C9: a record with both fields set is routed through the
HTML path, ignoring the text field. -/
theorem html_path_exclusive_witness :
    (computeSlots (fun _ => RichNode.text []) ⟨some (str "plain"), some (str "<p>x</p>")⟩ =
        computeSlots (fun _ => RichNode.text []) ⟨none, some (str "<p>x</p>")⟩ ∧
      computeSlots (fun _ => RichNode.text []) ⟨some (str "plain"), some (str "<p>x</p>")⟩ =
        split_latex_paragraphs (html_to_latex ((fun _ => RichNode.text [])
          (rawBodyOf ⟨some (str "plain"), some (str "<p>x</p>")⟩)))) ∧
    (∀ r : IntermediateRecord, is_html r = false →
      computeSlots (fun _ => RichNode.text []) r = split_paragraphs (rawBodyOf r)) :=
  html_path_exclusive (fun _ => RichNode.text []) (str "<p>x</p>")
    (some (str "plain")) none (by decide)

/- ------------------------------------------------------------------
   C6: the concrete HTML example
   ------------------------------------------------------------------ -/

/-- C6: converting the tree parsed from
`"<p>Hi <b>there</b></p><ul><li>A</li><li>B</li></ul>"` yields exactly
the escaped paragraph text with "there" in the bold-emphasis wrapper,
followed by a bulleted-list wrapper containing exactly the two entries
"A" and "B" in that order; in particular the output contains the
bold-wrapped "there" and that two-entry list. -/
theorem html_example_conversion :
    html_to_latex exampleHtmlTree =
      str "Hi " ++ textbfWrap (str "there") ++ str "\n\n" ++
        itemizeWrap [str "A", str "B"] ∧
    containsSub (textbfWrap (str "there")) (html_to_latex exampleHtmlTree) = true ∧
    containsSub (itemizeWrap [str "A", str "B"]) (html_to_latex exampleHtmlTree) = true := by
  refine ⟨by decide, by decide, by decide⟩

/- ------------------------------------------------------------------
   C7: template validation
   ------------------------------------------------------------------ -/

theorem containsSub_iff (pat : Str) :
    ∀ s, containsSub pat s = true ↔ ∃ a b, s = a ++ pat ++ b := by
  intro s
  induction s with
  | nil =>
    show startsWithCL pat [] = true ↔ _
    rw [startsWithCL_iff]
    constructor
    · rintro ⟨rest, h⟩
      exact ⟨[], rest, by simpa using h⟩
    · rintro ⟨a, b, h⟩
      obtain ⟨h1, h2⟩ := List.append_eq_nil.1 h.symm
      obtain ⟨h3, h4⟩ := List.append_eq_nil.1 h1
      exact ⟨b, by rw [h4]; simpa using h.symm ▸ h1.symm ▸ rfl⟩
  | cons c cs ih =>
    show (startsWithCL pat (c :: cs) || containsSub pat cs) = true ↔ _
    rw [Bool.or_eq_true, startsWithCL_iff, ih]
    constructor
    · rintro (⟨rest, h⟩ | ⟨a, b, h⟩)
      · exact ⟨[], rest, by simpa using h⟩
      · exact ⟨c :: a, b, by simp [h]⟩
    · rintro ⟨a, b, h⟩
      cases a with
      | nil =>
        left
        exact ⟨b, by simpa using h⟩
      | cons a0 as =>
        right
        refine ⟨as, b, ?_⟩
        have : c :: cs = a0 :: (as ++ pat ++ b) := by simpa using h
        exact (List.cons_eq_cons.1 this).2

/-- C7: `assemble` succeeds — producing the substituted document — if
and only if every one of the five placeholder tokens occurs in the
template; equivalently, it fails (with no partial output) exactly when
some required placeholder token has no occurrence in the template. -/
theorem assemble_requires_placeholders
    (template subject_raw first second third rest : Str) :
    ((assemble template subject_raw first second third rest).isSome ↔
      ∀ p ∈ required_placeholders, ∃ a b, template = a ++ p ++ b) ∧
    ((assemble template subject_raw first second third rest = none) ↔
      ¬ ∀ p ∈ required_placeholders, ∃ a b, template = a ++ p ++ b) := by
  have hmiss : (required_placeholders.filter
      (fun p => !containsSub p template) = []) ↔
      (∀ p ∈ required_placeholders, ∃ a b, template = a ++ p ++ b) := by
    rw [List.filter_eq_nil_iff]
    constructor
    · intro h p hp
      have h2 := h p hp
      simp only [Bool.not_eq_true', Bool.not_eq_true, Bool.not_eq_false] at h2
      exact (containsSub_iff p template).1 h2
    · intro h p hp
      simp only [Bool.not_eq_true', Bool.not_eq_true, Bool.not_eq_false]
      exact (containsSub_iff p template).2 (h p hp)
  unfold assemble
  by_cases hm : required_placeholders.filter (fun p => !containsSub p template) = []
  · rw [if_pos hm]
    refine ⟨⟨fun _ => hmiss.1 hm, fun _ => rfl⟩,
      ⟨fun h => absurd h (by simp), fun h => absurd (hmiss.1 hm) h⟩⟩
  · rw [if_neg hm]
    refine ⟨⟨fun h => absurd h (by simp), fun h => absurd (hmiss.2 h) hm⟩,
      ⟨fun _ h => hm (hmiss.2 h), fun _ => rfl⟩⟩

/- ------------------------------------------------------------------
   C3: assembly substitution order
   ------------------------------------------------------------------ -/

theorem tokOf_ne_nil : ∀ k : Fin 5, tokOf k ≠ [] := by decide

theorem renderSegs_congr (f g : Fin 5 → Str) (h : ∀ i, f i = g i) :
    ∀ segs, renderSegs f segs = renderSegs g segs := by
  intro segs
  induction segs with
  | nil => rfl
  | cons sg rest ih =>
    cases sg with
    | lit s => simp [renderSegs, ih]
    | tok i => simp [renderSegs, h i, ih]

/-- One `str.replace` pass over a segment-structured string: provided no
occurrence of the pass's token can begin inside a literal segment or
inside any other placeholder's current rendering, the pass replaces
exactly the occurrences of that token and nothing else. -/
theorem replaceAll_renderSegs (k : Fin 5) (v : Str) (g : Fin 5 → Str)
    (hgk : g k = tokOf k)
    (hg : ∀ j : Fin 5, j ≠ k → cannotMatchAt (tokOf k) (g j)) :
    ∀ segs : List Seg,
      (∀ s, Seg.lit s ∈ segs → cannotMatchAt (tokOf k) s) →
      replaceAll (renderSegs g segs) (tokOf k) v =
        renderSegs (Function.update g k v) segs := by
  intro segs
  induction segs with
  | nil => intro _; rfl
  | cons sg rest ih =>
    intro hlit
    cases sg with
    | lit s =>
      show replaceAll (s ++ renderSegs g rest) (tokOf k) v = s ++ _
      rw [replaceAll_passThrough _ _ s _ (hlit s (by simp)),
        ih (fun s2 hs2 => hlit s2 (by simp [hs2]))]
    | tok j =>
      show replaceAll (g j ++ renderSegs g rest) (tokOf k) v =
        Function.update g k v j ++ _
      by_cases hj : j = k
      · subst hj
        rw [hgk, replaceAll_matchHead _ _ _ (tokOf_ne_nil j),
          ih (fun s2 hs2 => hlit s2 (by simp [hs2])), Function.update_same]
      · rw [replaceAll_passThrough _ _ (g j) _ (hg j hj),
          ih (fun s2 hs2 => hlit s2 (by simp [hs2])), Function.update_noteq hj]

/-- C3 (amended): substitution in `latex_content` is five sequential
literal single-pass replaces in the fixed order SUBJECT, FIRST, SECOND,
THIRD, BODY.  For a template decomposed into literal text and the five
placeholder tokens (each occurring), provided neither the literal
segments nor the substituted values contain two consecutive open braces
or end in an open brace — so that no substitution step introduces or
feeds a new placeholder occurrence — the output equals the template
with each token replaced by its value exactly where the token occurred
in the original template text.  (Without that proviso the original
claim fails: a later-ordered token inside an earlier-substituted value
is itself substituted, see the counterexample.) -/
theorem latex_content_substitutes_in_place (segs : List Seg)
    (subject_raw first second third rest : Str)
    (hlit : segs.all (fun sg => match sg with
      | Seg.lit s => noTokenSeed s
      | Seg.tok _ => true) = true)
    (hvals : ∀ i : Fin 5,
      noTokenSeed (valsFun subject_raw first second third rest i) = true)
    (hall : ∀ i : Fin 5, Seg.tok i ∈ segs) :
    latex_content (renderSegs tokOf segs) subject_raw first second third rest =
      renderSegs (valsFun subject_raw first second third rest) segs := by
  have htokfacts : ∀ k : Fin 5, (tokOf k).getD 0 ' ' = '\x7b' ∧
      (tokOf k).getD 1 ' ' = '\x7b' ∧ 2 ≤ (tokOf k).length := by decide
  have hpair : ∀ k j : Fin 5, j ≠ k → cannotMatchAt (tokOf k) (tokOf j) := by decide
  have hcm : ∀ (k : Fin 5) (t : Str), noTokenSeed t = true →
      cannotMatchAt (tokOf k) t := fun k t ht =>
    cannotMatchAt_of_noTokenSeed _ _ (htokfacts k).1 (htokfacts k).2.1
      (htokfacts k).2.2 ht
  have hlit' : ∀ (k : Fin 5) (s : Str), Seg.lit s ∈ segs →
      cannotMatchAt (tokOf k) s := by
    intro k s hs
    apply hcm
    simpa using List.all_eq_true.1 hlit _ hs
  have pass0 : replaceAll (renderSegs tokOf segs) (tokOf 0)
        (latex_escape subject_raw) =
      renderSegs (Function.update tokOf 0 (latex_escape subject_raw)) segs := by
    refine replaceAll_renderSegs 0 _ tokOf rfl ?_ segs (hlit' 0)
    intro j hj
    exact hpair 0 j hj
  have pass1 : replaceAll
        (renderSegs (Function.update tokOf 0 (latex_escape subject_raw)) segs)
        (tokOf 1) first =
      renderSegs (Function.update
        (Function.update tokOf 0 (latex_escape subject_raw)) 1 first) segs := by
    refine replaceAll_renderSegs 1 _ _ ?_ ?_ segs (hlit' 1)
    · rw [Function.update_noteq (by decide)]
    · intro j hj
      by_cases h0 : j = 0
      · subst h0
        rw [Function.update_same]
        exact hcm 1 _ (hvals 0)
      · rw [Function.update_noteq h0]
        exact hpair 1 j hj
  have pass2 : replaceAll
        (renderSegs (Function.update
          (Function.update tokOf 0 (latex_escape subject_raw)) 1 first) segs)
        (tokOf 2) second =
      renderSegs (Function.update (Function.update
        (Function.update tokOf 0 (latex_escape subject_raw)) 1 first) 2 second)
        segs := by
    refine replaceAll_renderSegs 2 _ _ ?_ ?_ segs (hlit' 2)
    · rw [Function.update_noteq (by decide), Function.update_noteq (by decide)]
    · intro j hj
      by_cases h1 : j = 1
      · subst h1
        rw [Function.update_same]
        exact hcm 2 _ (hvals 1)
      · rw [Function.update_noteq h1]
        by_cases h0 : j = 0
        · subst h0
          rw [Function.update_same]
          exact hcm 2 _ (hvals 0)
        · rw [Function.update_noteq h0]
          exact hpair 2 j hj
  have pass3 : replaceAll
        (renderSegs (Function.update (Function.update
          (Function.update tokOf 0 (latex_escape subject_raw)) 1 first) 2 second)
          segs)
        (tokOf 3) third =
      renderSegs (Function.update (Function.update (Function.update
        (Function.update tokOf 0 (latex_escape subject_raw)) 1 first) 2 second)
        3 third) segs := by
    refine replaceAll_renderSegs 3 _ _ ?_ ?_ segs (hlit' 3)
    · rw [Function.update_noteq (by decide), Function.update_noteq (by decide),
        Function.update_noteq (by decide)]
    · intro j hj
      by_cases h2 : j = 2
      · subst h2
        rw [Function.update_same]
        exact hcm 3 _ (hvals 2)
      · rw [Function.update_noteq h2]
        by_cases h1 : j = 1
        · subst h1
          rw [Function.update_same]
          exact hcm 3 _ (hvals 1)
        · rw [Function.update_noteq h1]
          by_cases h0 : j = 0
          · subst h0
            rw [Function.update_same]
            exact hcm 3 _ (hvals 0)
          · rw [Function.update_noteq h0]
            exact hpair 3 j hj
  have pass4 : replaceAll
        (renderSegs (Function.update (Function.update (Function.update
          (Function.update tokOf 0 (latex_escape subject_raw)) 1 first) 2 second)
          3 third) segs)
        (tokOf 4) rest =
      renderSegs (Function.update (Function.update (Function.update
        (Function.update (Function.update tokOf 0 (latex_escape subject_raw))
          1 first) 2 second) 3 third) 4 rest) segs := by
    refine replaceAll_renderSegs 4 _ _ ?_ ?_ segs (hlit' 4)
    · rw [Function.update_noteq (by decide), Function.update_noteq (by decide),
        Function.update_noteq (by decide), Function.update_noteq (by decide)]
    · intro j hj
      by_cases h3 : j = 3
      · subst h3
        rw [Function.update_same]
        exact hcm 4 _ (hvals 3)
      · rw [Function.update_noteq h3]
        by_cases h2 : j = 2
        · subst h2
          rw [Function.update_same]
          exact hcm 4 _ (hvals 2)
        · rw [Function.update_noteq h2]
          by_cases h1 : j = 1
          · subst h1
            rw [Function.update_same]
            exact hcm 4 _ (hvals 1)
          · rw [Function.update_noteq h1]
            by_cases h0 : j = 0
            · subst h0
              rw [Function.update_same]
              exact hcm 4 _ (hvals 0)
            · rw [Function.update_noteq h0]
              exact hpair 4 j hj
  unfold latex_content
  rw [show tokSUBJECT = tokOf 0 from rfl, show tokFIRST = tokOf 1 from rfl,
    show tokSECOND = tokOf 2 from rfl, show tokTHIRD = tokOf 3 from rfl,
    show tokBODY = tokOf 4 from rfl, pass0, pass1, pass2, pass3, pass4]
  refine renderSegs_congr _ _ ?_ segs
  intro i
  fin_cases i <;>
    simp [Function.update, valsFun]

/-- Witness for C3 (amended) at the concrete template `tmplEx`
(decomposition `segsEx`) and plain values. -/
theorem latex_content_substitutes_in_place_witness :
    latex_content (renderSegs tokOf segsEx) (str "s") (str "a") (str "b")
        (str "c") (str "d") =
      renderSegs (valsFun (str "s") (str "a") (str "b") (str "c") (str "d"))
        segsEx :=
  latex_content_substitutes_in_place segsEx (str "s") (str "a") (str "b")
    (str "c") (str "d") (by decide) (by decide) (by decide)

/-- C3 counterexample: with the template `tmplEx` (which contains all
five tokens) and the slot value `first = "{{BODY}}"` — arbitrary text is
allowed by the claim — the chained `replace` calls substitute the
`{{BODY}}` token that arrived inside the substituted value, so the
output is not the template with each token replaced where it occurred
(the spec-side single-pass substitution), refuting the claim as
stated. -/
theorem latex_content_not_single_pass :
    latex_content tmplEx (str "s") tokBODY (str "b") (str "c") (str "X") =
        str "s|X|b|c|X" ∧
    substSimultaneous
        (specTable (str "s") tokBODY (str "b") (str "c") (str "X")) tmplEx =
      str "s|" ++ tokBODY ++ str "|b|c|X" ∧
    latex_content tmplEx (str "s") tokBODY (str "b") (str "c") (str "X") ≠
      substSimultaneous
        (specTable (str "s") tokBODY (str "b") (str "c") (str "X")) tmplEx :=
  ⟨by decide, by decide, by decide⟩

/- ------------------------------------------------------------------
   C5: segmentation round-trip
   ------------------------------------------------------------------ -/

theorem latex_escape_id_of_no_special (s : Str)
    (h : ∀ c ∈ s, isLatexSpecial c = false) : latex_escape s = s := by
  induction s with
  | nil => rfl
  | cons c cs ih =>
    show (if isLatexSpecial c then latexReplacement c else [c]) ++ latex_escape cs = _
    rw [h c (by simp), ih (fun x hx => h x (by simp [hx]))]
    simp

theorem mem_joinSep (sep : Str) :
    ∀ (l : List Str) (c : Char), c ∈ joinSep sep l →
      c ∈ sep ∨ ∃ x ∈ l, c ∈ x := by
  intro l
  induction l with
  | nil => intro c hc; exact absurd hc (by simp [joinSep])
  | cons x xs ih =>
    intro c hc
    cases xs with
    | nil =>
      right
      exact ⟨x, by simp, hc⟩
    | cons y ys =>
      simp only [joinSep, List.append_assoc, List.mem_append] at hc
      rcases hc with hc | hc | hc
      · exact Or.inr ⟨x, by simp, hc⟩
      · exact Or.inl hc
      · rcases ih c hc with h | ⟨z, hz, hcz⟩
        · exact Or.inl h
        · exact Or.inr ⟨z, by simp [hz], hcz⟩

theorem joinSep_ne_nil (sep : Str) (x : Str) (xs : List Str) (hx : x ≠ []) :
    joinSep sep (x :: xs) ≠ [] := by
  cases xs with
  | nil => simpa [joinSep] using hx
  | cons y ys =>
    simp only [joinSep]
    intro h
    simp only [List.append_assoc, List.append_eq_nil] at h
    exact hx h.1

theorem markLineBreaks_ne_nil (c : Char) (cs : Str) :
    markLineBreaks (c :: cs) ≠ [] := by
  unfold markLineBreaks
  rw [replaceAll_cons]
  by_cases h : startsWithCL ['\n'] (c :: cs) <;> simp [h, nlMark]

theorem mem_markLineBreaks (p : Str) (c : Char) (hc : c ∈ markLineBreaks p) :
    c = '\\' ∨ c ∈ p := by
  induction p with
  | nil => exact absurd hc (by simp [markLineBreaks, replaceAll_nil])
  | cons x xs ih =>
    unfold markLineBreaks at hc ih
    rw [replaceAll_cons] at hc
    by_cases h : startsWithCL ['\n'] (x :: xs)
    · rw [if_pos h] at hc
      simp only [List.length_singleton, Nat.sub_self, List.drop_zero] at hc
      rcases List.mem_append.1 hc with hc | hc
      · left
        simpa [nlMark] using (by simpa [nlMark] using hc : c = '\\' ∨ c = '\\')
      · rcases ih hc with h2 | h2
        · exact Or.inl h2
        · exact Or.inr (by simp [h2])
    · rw [if_neg h] at hc
      rcases List.mem_cons.1 hc with rfl | hc
      · exact Or.inr (by simp)
      · rcases ih hc with h2 | h2
        · exact Or.inl h2
        · exact Or.inr (by simp [h2])

/-- Replacing the injected markers back by newlines undoes the marking,
for backslash-free paragraphs. -/
theorem unmark_mark (p : Str) (hp : ∀ c ∈ p, c ≠ '\\') :
    unmarkLineBreaks (markLineBreaks p) = p := by
  induction p with
  | nil => rfl
  | cons c cs ih =>
    have hc : c ≠ '\\' := hp c (by simp)
    have ih' := ih (fun x hx => hp x (by simp [hx]))
    unfold markLineBreaks at ih' ⊢
    by_cases hnl : c = '\n'
    · subst hnl
      rw [replaceAll_cons, if_pos (by simp [startsWithCL])]
      unfold unmarkLineBreaks at ih' ⊢
      show replaceAll ('\\' :: '\\' :: replaceAll cs ['\n'] nlMark) nlMark ['\n'] =
        '\n' :: cs
      rw [replaceAll_cons, if_pos (by simp [startsWithCL, nlMark])]
      show ('\n' :: replaceAll (replaceAll cs ['\n'] nlMark) nlMark ['\n'] : Str) =
        '\n' :: cs
      exact congrArg ('\n' :: ·) ih'
    · rw [replaceAll_cons, if_neg (by simp [startsWithCL]; exact fun h => absurd h.symm hnl)]
      unfold unmarkLineBreaks at ih' ⊢
      rw [replaceAll_cons, if_neg (by simp [startsWithCL, nlMark]; exact fun h => absurd h.symm hc)]
      exact congrArg (c :: ·) ih'

theorem splitlinesGo_chars :
    ∀ (fuel : Nat) (acc s line : Str), line ∈ splitlinesGo fuel acc s →
      ∀ c ∈ line, c ∈ acc ∨ c ∈ s := by
  intro fuel
  induction fuel with
  | zero =>
    intro acc s line hline c hc
    cases s with
    | nil =>
      simp only [splitlinesGo, List.mem_singleton] at hline
      subst hline
      exact Or.inl (List.mem_reverse.1 hc)
    | cons c0 cs =>
      simp only [splitlinesGo, List.mem_singleton] at hline
      subst hline
      rcases List.mem_append.1 hc with h | h
      · exact Or.inl (List.mem_reverse.1 h)
      · exact Or.inr h
  | succ fu ih =>
    intro acc s line hline c hc
    cases s with
    | nil =>
      simp only [splitlinesGo, List.mem_singleton] at hline
      subst hline
      exact Or.inl (List.mem_reverse.1 hc)
    | cons c0 cs =>
      cases cs with
      | nil =>
        simp only [splitlinesGo] at hline
        by_cases hbk : isLineBreakChar c0
        · rw [if_pos hbk] at hline
          rcases List.mem_singleton.1 hline with rfl
          exact Or.inl (List.mem_reverse.1 hc)
        · rw [if_neg hbk] at hline
          rcases List.mem_singleton.1 hline with rfl
          rcases List.mem_cons.1 (List.mem_reverse.1 hc) with rfl | h
          · exact Or.inr (by simp)
          · exact Or.inl h
      | cons c2 rest =>
        simp only [splitlinesGo] at hline
        by_cases hbk : isLineBreakChar c0
        · rw [if_pos hbk] at hline
          by_cases hrn : (c0 = '\r' && c2 = '\n') = true
          · rw [if_pos hrn] at hline
            rcases List.mem_cons.1 hline with rfl | hline2
            · exact Or.inl (List.mem_reverse.1 hc)
            · by_cases hr0 : rest = []
              · rw [if_pos hr0] at hline2
                exact absurd hline2 (by simp)
              · rw [if_neg hr0] at hline2
                rcases ih [] rest line hline2 c hc with h | h
                · exact absurd h (by simp)
                · exact Or.inr (by simp [h])
          · rw [if_neg hrn] at hline
            rcases List.mem_cons.1 hline with rfl | hline2
            · exact Or.inl (List.mem_reverse.1 hc)
            · rcases ih [] (c2 :: rest) line hline2 c hc with h | h
              · exact absurd h (by simp)
              · exact Or.inr (by simp [h])
        · rw [if_neg hbk] at hline
          rcases ih (c0 :: acc) (c2 :: rest) line hline c hc with h | h
          · rcases List.mem_cons.1 h with rfl | h2
            · exact Or.inr (by simp)
            · exact Or.inl h2
          · exact Or.inr (by simp [h])

/-- Every character of every line of `splitlines` is a character of the
input. -/
theorem splitlinesPy_chars (s line : Str) (hline : line ∈ splitlinesPy s) :
    ∀ c ∈ line, c ∈ s := by
  intro c hc
  unfold splitlinesPy at hline
  by_cases hs : s = []
  · rw [if_pos hs] at hline
    exact absurd hline (by simp)
  · rw [if_neg hs] at hline
    rcases splitlinesGo_chars s.length [] s line hline c hc with h | h
    · exact absurd h (by simp)
    · exact h

theorem groupsR_cons_blank (l : Str) (ls : List Str) (hb : pyStrip l = []) :
    groupsR (l :: ls) = [] :: groupsR ls := by
  simp [groupsR, hb]

theorem groupsR_cons_nonblank_nil (l : Str) (ls : List Str)
    (hb : pyStrip l ≠ []) (hgr : groupsR ls = []) :
    groupsR (l :: ls) = [[l]] := by
  simp [groupsR, hb, hgr]

theorem groupsR_cons_nonblank_cons (l : Str) (ls : List Str) (g0 : List Str)
    (gs : List (List Str)) (hb : pyStrip l ≠ []) (hgr : groupsR ls = g0 :: gs) :
    groupsR (l :: ls) = (l :: g0) :: gs := by
  simp [groupsR, hb, hgr]

/-- The lines collected into the groups are lines of the input, and are
non-blank. -/
theorem groupsR_mem :
    ∀ (lines : List Str) (g : List Str), g ∈ groupsR lines →
      ∀ l ∈ g, l ∈ lines ∧ pyStrip l ≠ [] := by
  intro lines
  induction lines with
  | nil => intro g hg; exact absurd hg (by simp [groupsR])
  | cons l0 ls ih =>
    intro g hg x hx
    by_cases hb : pyStrip l0 = []
    · rw [groupsR_cons_blank l0 ls hb] at hg
      rcases List.mem_cons.1 hg with rfl | hg2
      · exact absurd hx (by simp)
      · obtain ⟨h1, h2⟩ := ih g hg2 x hx
        exact ⟨by simp [h1], h2⟩
    · cases hgr : groupsR ls with
      | nil =>
        rw [groupsR_cons_nonblank_nil l0 ls hb hgr] at hg
        rcases List.mem_singleton.1 hg with rfl
        rcases List.mem_singleton.1 hx with rfl
        exact ⟨by simp, hb⟩
      | cons g0 gs =>
        rw [groupsR_cons_nonblank_cons l0 ls g0 gs hb hgr] at hg
        rcases List.mem_cons.1 hg with rfl | hg2
        · rcases List.mem_cons.1 hx with rfl | hx2
          · exact ⟨by simp, hb⟩
          · obtain ⟨h1, h2⟩ := ih g0 (by rw [hgr]; simp) x hx2
            exact ⟨by simp [h1], h2⟩
        · obtain ⟨h1, h2⟩ := ih g (by rw [hgr]; simp [hg2]) x hx
          exact ⟨by simp [h1], h2⟩

theorem headMerge_nil_left (gs : List (List Str)) : headMerge [] gs = gs := by
  simp [headMerge]

theorem headMerge_ne_nil (cur : List Str) (h : cur ≠ []) :
    headMerge cur [] = [cur] := by
  simp [headMerge, h]

theorem headMerge_ne_cons (cur g : List Str) (gs : List (List Str))
    (h : cur ≠ []) : headMerge cur (g :: gs) = (cur ++ g) :: gs := by
  simp [headMerge, h]

/-- The code's accumulator loop computes exactly the joined non-blank
groups (with the accumulator merged into the first group). -/
theorem paraLoop_eq :
    ∀ (lines : List Str) (cur : List Str),
      paraLoop cur lines =
        ((headMerge cur (groupsR lines)).filter (· ≠ [])).map (joinSep ['\n']) := by
  intro lines
  induction lines with
  | nil =>
    intro cur
    by_cases hc : cur = []
    · simp [paraLoop, groupsR, headMerge, hc]
    · simp [paraLoop, groupsR, headMerge, hc]
  | cons l ls ih =>
    intro cur
    have hunfold : paraLoop cur (l :: ls) =
        if pyStrip l = [] then
          ((if cur = [] then [] else [joinSep ['\n'] cur]) ++ paraLoop [] ls)
        else paraLoop (cur ++ [l]) ls := rfl
    by_cases hb : pyStrip l = []
    · rw [hunfold, if_pos hb, groupsR_cons_blank l ls hb, ih [],
        headMerge_nil_left]
      by_cases hc : cur = []
      · subst hc
        rw [headMerge_nil_left, if_pos rfl]
        simp [List.filter_cons]
      · rw [headMerge_ne_cons cur [] (groupsR ls) hc, if_neg hc]
        simp [List.filter_cons, hc]
    · rw [hunfold, if_neg hb, ih (cur ++ [l])]
      have hl : l ≠ [] := fun h => hb (by rw [h]; rfl)
      have hcl : cur ++ [l] ≠ [] := by simp
      cases hgr : groupsR ls with
      | nil =>
        rw [groupsR_cons_nonblank_nil l ls hb hgr, headMerge_ne_nil _ hcl]
        by_cases hc : cur = []
        · subst hc
          rw [headMerge_nil_left]
          simp
        · rw [headMerge_ne_cons cur [l] [] hc]
      | cons g0 gs =>
        rw [groupsR_cons_nonblank_cons l ls g0 gs hb hgr,
          headMerge_ne_cons _ g0 gs hcl]
        by_cases hc : cur = []
        · subst hc
          rw [headMerge_nil_left]
          simp
        · rw [headMerge_ne_cons cur (l :: g0) gs hc]
          simp [List.append_assoc]

/-- Paragraphs produced by the loop are non-empty, and each of their
characters is either an injected joining newline or a character of one
of the input lines. -/
theorem paraLoop_mem (lines : List Str) (p : Str) (hp : p ∈ paraLoop [] lines) :
    p ≠ [] ∧ ∀ c ∈ p, c = '\n' ∨ ∃ l ∈ lines, c ∈ l := by
  rw [paraLoop_eq lines [], show headMerge [] (groupsR lines) = groupsR lines
    from by simp [headMerge]] at hp
  obtain ⟨g, hgmem, rfl⟩ := List.mem_map.1 hp
  rw [List.mem_filter] at hgmem
  obtain ⟨hg, hgne⟩ := hgmem
  have hgne2 : g ≠ [] := by simpa using hgne
  constructor
  · cases g with
    | nil => exact absurd rfl hgne2
    | cons x g2 =>
      have hx := (groupsR_mem lines _ hg x (by simp)).2
      have hxne : x ≠ [] := fun h => hx (by rw [h]; rfl)
      exact joinSep_ne_nil ['\n'] x g2 hxne
  · intro c hc
    rcases mem_joinSep ['\n'] g c hc with h | ⟨x, hxg, hcx⟩
    · exact Or.inl (by simpa using h)
    · exact Or.inr ⟨x, (groupsR_mem lines g hg x hxg).1, hcx⟩

theorem pyStrip_nil_all_space (s : Str) :
    pyStrip s = [] ↔ ∀ c ∈ s, isPySpace c = true := by
  constructor
  · intro h c hc
    unfold pyStrip dropEndWhile at h
    have h2 : (s.dropWhile isPySpace).reverse.dropWhile isPySpace = [] := by
      cases he : (s.dropWhile isPySpace).reverse.dropWhile isPySpace with
      | nil => rfl
      | cons a l => rw [he] at h; exact absurd h (by simp)
    have hall : ∀ c2 ∈ s.dropWhile isPySpace, isPySpace c2 = true := by
      intro c2 hc2
      exact List.dropWhile_eq_nil_iff.1 h2 c2 (List.mem_reverse.2 hc2)
    have hc2 : c ∈ s.takeWhile isPySpace ++ s.dropWhile isPySpace := by
      rw [List.takeWhile_append_dropWhile]
      exact hc
    rcases List.mem_append.1 hc2 with h3 | h3
    · exact List.mem_takeWhile_imp h3
    · exact hall c h3
  · intro h
    unfold pyStrip dropEndWhile
    rw [List.dropWhile_eq_nil_iff.2 h]
    rfl

theorem groupsR_filter_nil_of_all_blank (lines : List Str)
    (h : ∀ l ∈ lines, pyStrip l = []) :
    (groupsR lines).filter (· ≠ []) = [] := by
  induction lines with
  | nil => rfl
  | cons l ls ih =>
    have hb : pyStrip l = [] := h l (by simp)
    rw [show groupsR (l :: ls) = [] :: groupsR ls by simp [groupsR, hb]]
    simpa using ih (fun x hx => h x (by simp [hx]))

/-- C5 (amended): for texts free of reserved characters (so that the
LaTeX escaping applied to the slots is the identity), segmenting into
the four slots and rejoining all returned paragraphs — reading each
injected line-break marker as the newline it replaced — reconstructs
exactly the original content's non-blank lines, with leading/trailing
blank lines trimmed and internal runs of blank lines collapsed to
single paragraph breaks.  (On texts containing reserved characters the
rejoined content is the escaped original, not the original: see the
counterexample.) -/
theorem split_paragraphs_roundtrip (text : Str)
    (hres : ∀ c ∈ text, isLatexSpecial c = false) :
    rejoinSlots (split_paragraphs text) = normalizeText text := by
  have hchars : ∀ p ∈ paraLoop [] (splitlinesPy text),
      ∀ c ∈ p, isLatexSpecial c = false := by
    intro p hp c hc
    rcases (paraLoop_mem (splitlinesPy text) p hp).2 c hc with rfl | ⟨l, hl, hcl⟩
    · decide
    · exact hres c (splitlinesPy_chars text l hl c hcl)
  have hne : ∀ p ∈ paraLoop [] (splitlinesPy text), p ≠ [] :=
    fun p hp => (paraLoop_mem (splitlinesPy text) p hp).1
  have hesc : ∀ p ∈ paraLoop [] (splitlinesPy text), latex_escape p = p :=
    fun p hp => latex_escape_id_of_no_special p (hchars p hp)
  have hum : ∀ p ∈ paraLoop [] (splitlinesPy text),
      unmarkLineBreaks (markLineBreaks p) = p := by
    intro p hp
    refine unmark_mark p ?_
    intro c hc heq
    have h2 := hchars p hp c hc
    rw [heq] at h2
    exact absurd h2 (by decide)
  have hmkne : ∀ p : Str, p ≠ [] → markLineBreaks p ≠ [] := by
    intro p hp
    cases p with
    | nil => exact absurd rfl hp
    | cons c cs => exact markLineBreaks_ne_nil c cs
  have hjchars : ∀ l : List Str, (∀ p ∈ l, ∀ c ∈ p, isLatexSpecial c = false) →
      ∀ c ∈ joinSep (str "\n\n") l, isLatexSpecial c = false := by
    intro l hl c hc
    rcases mem_joinSep (str "\n\n") l c hc with h | ⟨x, hx, hcx⟩
    · have : c = '\n' := by
        rcases List.mem_cons.1 h with rfl | h2
        · rfl
        · simpa using h2
      rw [this]; decide
    · exact hl x hx c hcx
  have hnorm : normalizeText text =
      joinSep (str "\n\n") (paraLoop [] (splitlinesPy text)) := by
    unfold normalizeText
    rw [paraLoop_eq, headMerge_nil_left]
  by_cases hearly : text = [] ∨ pyStrip text = []
  · have hz : split_paragraphs text = ⟨[], [], [], []⟩ := by
      unfold split_paragraphs
      rw [if_pos hearly]
    rw [hz, show rejoinSlots ⟨[], [], [], []⟩ = [] from by decide]
    rcases hearly with he | he
    · subst he
      rfl
    · have hsp := (pyStrip_nil_all_space text).1 he
      have hblank : ∀ l ∈ splitlinesPy text, pyStrip l = [] := by
        intro l hl
        exact (pyStrip_nil_all_space l).2
          (fun c hc => hsp c (splitlinesPy_chars text l hl c hc))
      unfold normalizeText
      rw [groupsR_filter_nil_of_all_blank _ hblank]
      rfl
  · rw [hnorm]
    have hsp : split_paragraphs text =
        (let paragraphs := paraLoop [] (splitlinesPy text)
         if paragraphs = [] then (⟨[], [], [], []⟩ : Slots)
         else
           ⟨if paragraphs.getD 0 [] = [] then []
              else markLineBreaks (latex_escape (paragraphs.getD 0 [])),
            if paragraphs.getD 1 [] = [] then []
              else markLineBreaks (latex_escape (paragraphs.getD 1 [])),
            if paragraphs.getD 2 [] = [] then []
              else markLineBreaks (latex_escape (paragraphs.getD 2 [])),
            latex_escape (if 3 < paragraphs.length then
              joinSep (str "\n\n") (paragraphs.drop 3) else [])⟩) := by
      unfold split_paragraphs
      rw [if_neg hearly]
    rw [hsp]
    simp only []
    generalize hps : paraLoop [] (splitlinesPy text) = ps
    rw [hps] at hchars hne hesc hum
    cases ps with
    | nil =>
      rw [if_pos rfl]
      decide
    | cons p0 ps2 =>
      rw [if_neg (by simp)]
      have h0ne : p0 ≠ [] := hne p0 (by simp)
      have h0esc : latex_escape p0 = p0 := hesc p0 (by simp)
      have h0um : unmarkLineBreaks (markLineBreaks p0) = p0 := hum p0 (by simp)
      cases ps2 with
      | nil =>
        simp only [List.getD_cons_zero, List.getD_cons_succ, List.getD_nil,
          List.length_cons, List.length_nil]
        rw [if_neg h0ne, h0esc]
        simp [rejoinSlots, h0um, show unmarkLineBreaks [] = [] from rfl,
          show latex_escape [] = [] from rfl, List.filter_cons, h0ne, joinSep]
      | cons p1 ps3 =>
        have h1ne : p1 ≠ [] := hne p1 (by simp)
        have h1esc : latex_escape p1 = p1 := hesc p1 (by simp)
        have h1um : unmarkLineBreaks (markLineBreaks p1) = p1 := hum p1 (by simp)
        cases ps3 with
        | nil =>
          simp only [List.getD_cons_zero, List.getD_cons_succ, List.getD_nil,
            List.length_cons, List.length_nil]
          rw [if_neg h0ne, if_neg h1ne, h0esc, h1esc]
          simp [rejoinSlots, h0um, h1um, show unmarkLineBreaks [] = [] from rfl,
            show latex_escape [] = [] from rfl, List.filter_cons, h0ne, h1ne,
            joinSep]
        | cons p2 ps4 =>
          have h2ne : p2 ≠ [] := hne p2 (by simp)
          have h2esc : latex_escape p2 = p2 := hesc p2 (by simp)
          have h2um : unmarkLineBreaks (markLineBreaks p2) = p2 := hum p2 (by simp)
          cases ps4 with
          | nil =>
            simp only [List.getD_cons_zero, List.getD_cons_succ, List.getD_nil,
              List.length_cons, List.length_nil]
            rw [if_neg h0ne, if_neg h1ne, if_neg h2ne, h0esc, h1esc, h2esc]
            simp [rejoinSlots, h0um, h1um, h2um,
              show unmarkLineBreaks [] = [] from rfl,
              show latex_escape [] = [] from rfl, List.filter_cons, h0ne, h1ne,
              h2ne, joinSep, List.append_assoc]
          | cons p3 ps5 =>
            have h3ne : p3 ≠ [] := hne p3 (by simp)
            have hrest : latex_escape (joinSep (str "\n\n") (p3 :: ps5)) =
                joinSep (str "\n\n") (p3 :: ps5) := by
              refine latex_escape_id_of_no_special _ (hjchars (p3 :: ps5) ?_)
              intro p hp c hc
              exact hchars p (by simp [hp]) c hc
            have hrestne : joinSep (str "\n\n") (p3 :: ps5) ≠ [] :=
              joinSep_ne_nil (str "\n\n") p3 ps5 h3ne
            simp only [List.getD_cons_zero, List.getD_cons_succ, List.getD_nil,
              List.length_cons, List.length_nil, List.drop_succ_cons,
              List.drop_zero]
            rw [if_neg h0ne, if_neg h1ne, if_neg h2ne, h0esc, h1esc, h2esc,
              if_pos (show 3 < ps5.length + 1 + 1 + 1 + 1 by omega), hrest]
            simp [rejoinSlots, h0um, h1um, h2um, List.filter_cons, h0ne, h1ne,
              h2ne, hrestne, joinSep, List.append_assoc]

/-- Witness for C5 (amended) at the spec's concrete example
`"Hello\n\n\nWorld\n\nFoo"`. -/
theorem split_paragraphs_roundtrip_witness :
    rejoinSlots (split_paragraphs (str "Hello\n\n\nWorld\n\nFoo")) =
      normalizeText (str "Hello\n\n\nWorld\n\nFoo") :=
  split_paragraphs_roundtrip _ (by decide)

/-- C5 counterexample: on the input `"a%b"` the first returned slot is
the escaped text `"a\%b"`, so rejoining does not reconstruct the
original non-blank content `"a%b"`; the claim as stated ignores the
escaping applied by `split_paragraphs`. -/
theorem split_paragraphs_roundtrip_cex :
    rejoinSlots (split_paragraphs (str "a%b")) = str "a\\%b" ∧
    normalizeText (str "a%b") = str "a%b" ∧
    rejoinSlots (split_paragraphs (str "a%b")) ≠ normalizeText (str "a%b") :=
  ⟨by decide, by decide, by decide⟩

end LatexEmail
